import Mathlib

/-!
Verification of the ds1821-pi utility (ds1821_program.c, ds1821_read.c).

The development shallowly embeds the pure computational content of the C
sources:

* the 1-Wire byte codec (ow_write_byte / ow_read_byte) as bit lists,
* the ROM checksum (ow_crc8),
* the Search ROM discovery algorithm (ow_search_rom) over a simulated bus
  given by the list of 64-bit device codes (a code is a list of 64 booleans,
  index i being bit position i, that is bit (i mod 8) of byte (i / 8)),
* the DS1821 command layer as trace-producing functions over an abstract
  bus oracle,
* the GPIO pin operations as event traces for the open-drain invariant,
* the argument parsing and exit-code logic of main,
* the high-resolution temperature derivation.

Machine integers are modelled as Nat / Int; the (int8_t) and (uint8_t)
casts of the C code are explicit mod-256 operations.  C integer division
on int is truncation toward zero, which is Int.tdiv in Lean.
-/

/-! ### Byte-level codec (ds1821_program.c lines 188-215)

ow_write_byte emits the 8 bits of its argument least significant first
(for i in 0..7: ow_write_bit(byte & 0x01); byte >>= 1).  We model the
emitted bit sequence.  ow_read_byte accumulates 8 sampled bits least
significant first (if bit then byte |= 1 << i); we model it as a function
of the sampled bit sequence. -/

/-- Bits emitted by the loop of ow_write_byte: `n` iterations of
emit (byte & 1), byte >>= 1. -/
def ow_write_byte_loop : Nat → Nat → List Bool
  | 0, _ => []
  | n + 1, byte => (byte &&& 1 == 1) :: ow_write_byte_loop n (byte >>> 1)

/-- ow_write_byte (lines 188-197): the 8 emitted bits, LSB first. -/
def ow_write_byte (byte : Nat) : List Bool :=
  ow_write_byte_loop 8 byte

/-- Accumulator loop of ow_read_byte: for each sampled bit, if set then
byte |= 1 <<< i. -/
def ow_read_byte_loop : List Bool → Nat → Nat → Nat
  | [], _, byte => byte
  | b :: rest, i, byte => ow_read_byte_loop rest (i + 1) (if b then byte ||| (1 <<< i) else byte)

/-- ow_read_byte (lines 202-215) applied to a sampled bit sequence. -/
def ow_read_byte (bits : List Bool) : Nat :=
  ow_read_byte_loop bits 0 0

/-! ### ROM checksum (ds1821_program.c lines 403-416) -/

/-- Inner 8-round loop of ow_crc8 for one input byte:
mix = (crc ^ byte) & 1; crc >>= 1; if mix then crc ^= 0x8C; byte >>= 1. -/
def ow_crc8_rounds : Nat → Nat → Nat → Nat
  | 0, crc, _ => crc
  | j + 1, crc, byte =>
    let mix := (crc ^^^ byte) &&& 1
    let crc1 := crc >>> 1
    let crc2 := if mix ≠ 0 then crc1 ^^^ 0x8C else crc1
    ow_crc8_rounds j crc2 (byte >>> 1)

/-- ow_crc8 over a byte list (crc starts at 0, 8 rounds per byte). -/
def ow_crc8 (data : List Nat) : Nat :=
  data.foldl (fun crc b => ow_crc8_rounds 8 crc b) 0

/-- ROM validation as used at lines 424-426 and 542-543: the checksum of
the first 7 bytes must equal the 8th byte. -/
def rom_crc_valid (rom : List Nat) : Prop :=
  ow_crc8 (rom.take 7) = rom.getD 7 0

/-! ### High-resolution temperature (ds1821_program.c lines 692-697,
ds1821_read.c lines 214-222)

`int cpc = count_per_c ? count_per_c : 1;`
`int millideg = (int)temp * 1000 - 250 + ((int)(cpc - count_remain) * 1000) / cpc;`

temp is int8_t, count_remain and count_per_c are uint8_t; all arithmetic
is done in int, far from overflow, so plain Int is a faithful model.
C division of int is truncation toward zero = Int.tdiv. -/

/-- The `count_per_c ? count_per_c : 1` coercion. -/
def coerce_cpc (count_per_c : Nat) : Int :=
  if count_per_c = 0 then 1 else (count_per_c : Int)

/-- Millidegree computation in action_read_temp (ds1821_program.c 692-697). -/
def action_read_temp_millideg (temp : Int) (count_remain count_per_c : Nat) : Int :=
  let cpc := coerce_cpc count_per_c
  temp * 1000 - 250 + Int.tdiv ((cpc - (count_remain : Int)) * 1000) cpc

/-- Millidegree computation in read_hw_temperature (ds1821_read.c 214-222);
textually the same formula as in action_read_temp. -/
def read_hw_temperature_millideg (temp : Int) (count_remain count_per_c : Nat) : Int :=
  let cpc := coerce_cpc count_per_c
  temp * 1000 - 250 + Int.tdiv ((cpc - (count_remain : Int)) * 1000) cpc

/-- The specification formula: T*1000 - 250 + trunc(((C - R)*1000) / C)
with C = 0 coerced to 1, truncating integer division. -/
def spec_millidegrees (T : Int) (R C : Nat) : Int :=
  let Cc : Int := if C = 0 then 1 else (C : Int)
  T * 1000 - 250 + Int.tdiv ((Cc - (R : Int)) * 1000) Cc

/-- The real-valued (float) degree formula `T - 0.25 + (C - R) / C`,
modelled over ℚ.  For the data sheet operating range every quantity in the
C float computation is an exactly representable small dyadic rational, so
ℚ is an exact model of the float result at the test vector. -/
def spec_degrees (T : Int) (R C : Nat) : ℚ :=
  let Cc : ℚ := if C = 0 then 1 else (C : ℚ)
  (T : ℚ) - 1/4 + (Cc - (R : ℚ)) / Cc

/-! ### Search ROM (ds1821_program.c lines 445-519)

A device code is a list of 64 booleans, index i = bit position i of the
C rom buffer (bit (i mod 8) of rom[i / 8]).  The simulated bus follows
open-drain wired-AND semantics: during a search round the devices still
matching the chosen prefix answer; the id bit reads 1 iff no such device
has bit 0, the complement bit reads 1 iff no such device has bit 1, and
after the master writes the direction bit the devices whose bit differs
drop out.  With no participating device both reads float high.

The bit loop is searchPassAux, recursing over the remaining suffix of the
previous rom buffer while the participating devices are kept as the list
of their remaining code suffixes. -/

/-- Direction choice and new_discrepancy update of one bit position
(lines 479-495).  Returns (dir, new value of new_discrepancy). -/
def searchDirNd (idBit cmpBit : Bool) (bitPos : Nat) (lastDisc nd : Int) (prevBit : Bool) :
    Bool × Int :=
  if idBit ≠ cmpBit then
    (idBit, nd)
  else if (bitPos : Int) = lastDisc then
    (true, nd)
  else if (bitPos : Int) > lastDisc then
    (false, (bitPos : Int))
  else
    (prevBit, if prevBit = false then (bitPos : Int) else nd)

/-- The bit loop of ow_search_rom (lines 465-506).  `part` holds the code
suffixes of the devices still participating, `prev` the suffix of the rom
buffer from the previous pass (read by the replay branch), `bitPos` the
current bit position, `nd` the running new_discrepancy.  Returns none when
both response bits read 1 (done = 1, pass aborted), otherwise the rom bits
produced from this position on together with the final new_discrepancy. -/
def searchPassAux : List (List Bool) → List Bool → Nat → Int → Int → Option (List Bool × Int)
  | _, [], _, _, nd => some ([], nd)
  | part, pb :: prest, bitPos, lastDisc, nd =>
    let idBit := part.all fun d => d.headD false
    let cmpBit := part.all fun d => !(d.headD false)
    if idBit && cmpBit then none
    else
      let dn := searchDirNd idBit cmpBit bitPos lastDisc nd pb
      match searchPassAux ((part.filter fun d => d.headD false == dn.1).map List.tail)
          prest (bitPos + 1) lastDisc dn.2 with
      | none => none
      | some (c, ndf) => some (dn.1 :: c, ndf)

/-- One full 64-bit search pass: bit positions from 0, new_discrepancy
initialised to -1 (line 463). -/
def searchPass (devs : List (List Bool)) (prev : List Bool) (lastDisc : Int) :
    Option (List Bool × Int) :=
  searchPassAux devs prev 0 lastDisc (-1)

/-- The while loop of ow_search_rom (lines 454-516).  The fuel argument is
max_devices - device_count, so fuel = 0 is the `device_count < max_devices`
exit.  A reset with no presence (empty bus) or an aborted pass ends the
search; otherwise the rom is recorded and, when a new discrepancy remains,
the loop continues from it. -/
def searchLoop (devs : List (List Bool)) : List Bool → Int → List (List Bool) → Nat →
    List (List Bool)
  | _, _, found, 0 => found
  | rom, lastDisc, found, fuel + 1 =>
    if devs.isEmpty then found
    else
      match searchPass devs rom lastDisc with
      | none => found
      | some (newRom, nd) =>
        if nd < 0 then found ++ [newRom]
        else searchLoop devs newRom nd (found ++ [newRom]) fuel

/-- ow_search_rom (lines 445-519): rom buffer zeroed, last_discrepancy = -1,
no devices found yet. -/
def ow_search_rom (devs : List (List Bool)) (maxDevices : Nat) : List (List Bool) :=
  searchLoop devs (List.replicate 64 false) (-1) [] maxDevices

/-! Specification-side notions used to reason about the search. -/

/-- Strict lexicographic order on equal-length bit lists, earlier
positions most significant, false < true.  This is the order in which the
search algorithm enumerates codes. -/
def codeLt : List Bool → List Bool → Bool
  | [], _ => false
  | _ :: _, [] => false
  | a :: as, b :: bs => (!a && b) || ((a == b) && codeLt as bs)

/-- Non-strict version of codeLt, used to describe the set of codes the
search has already delivered. -/
def codeLe (d r : List Bool) : Bool := codeLt d r || d == r

/-- The position the pass records as new_discrepancy, computed from the
final code c of the pass: the last position where the participating set
holds both bit values and c takes false; nd if there is none.  The
participating set is filtered along c exactly as in searchPassAux. -/
def lastZero : List (List Bool) → List Bool → Nat → Int → Int
  | _, [], _, nd => nd
  | part, b :: rest, bitPos, nd =>
    let hasT := part.any fun d => d.headD false
    let hasF := part.any fun d => !(d.headD false)
    let nd' := if b = false ∧ hasT = true ∧ hasF = true then (bitPos : Int) else nd
    lastZero ((part.filter fun d => d.headD false == b).map List.tail) rest (bitPos + 1) nd'

/-! ### DS1821 command layer (ds1821_program.c lines 224-363)

The command-layer functions are modelled as trace-producing functions over
an abstract bus: the bus supplies the presence answer of ow_reset and the
bytes returned by ow_read_byte.  Results are Option values, none being the
C return value -1.  stderr/stdout output is not modelled. -/

/-- Byte-level bus activity of one command-layer operation. -/
inductive BusEv where
  | reset : BusEv
  | writeByte (b : Nat) : BusEv
  | readByte : BusEv
  | releaseIdle : BusEv
  | delayUs (n : Nat) : BusEv
deriving DecidableEq, Repr

/-- Abstract bus oracle: presence answer of ow_reset, and the byte values
delivered by successive ow_read_byte calls of the operation. -/
structure Bus where
  presence : Bool
  readVals : Nat → Nat

/-- The (uint8_t) cast of an int value. -/
def toByte (i : Int) : Nat := (i % 256).toNat

/-- The (int8_t) reinterpretation of a byte. -/
def byteToInt8 (b : Nat) : Int :=
  if b % 256 < 128 then ((b % 256 : Nat) : Int) else ((b % 256 : Nat) : Int) - 256

/-- ds1821_read_status_reg (lines 224-233). -/
def ds1821_read_status_reg (bus : Bus) : Option Nat × List BusEv :=
  if bus.presence then (some (bus.readVals 0), [.reset, .writeByte 0xAC, .readByte])
  else (none, [.reset])

/-- ds1821_write_status_reg (lines 235-255): write command, write value,
release the bus and wait 200 ms for the EEPROM commit. -/
def ds1821_write_status_reg (status : Nat) (bus : Bus) : Option Unit × List BusEv :=
  if bus.presence then
    (some (), [.reset, .writeByte 0x0C, .writeByte status, .releaseIdle, .delayUs 200000])
  else (none, [.reset])

/-- ds1821_write_status_skiprom (lines 261-276). -/
def ds1821_write_status_skiprom (status : Nat) (bus : Bus) : Option Unit × List BusEv :=
  if bus.presence then
    (some (), [.reset, .writeByte 0xCC, .writeByte 0x0C, .writeByte status,
               .releaseIdle, .delayUs 200000])
  else (none, [.reset])

/-- ds1821_read_status_skiprom (lines 278-285). -/
def ds1821_read_status_skiprom (bus : Bus) : Option Nat × List BusEv :=
  if bus.presence then (some (bus.readVals 0), [.reset, .writeByte 0xCC, .writeByte 0xAC, .readByte])
  else (none, [.reset])

/-- ds1821_read_temperature (lines 287-296); the read byte is cast to int8_t. -/
def ds1821_read_temperature (bus : Bus) : Option Int × List BusEv :=
  if bus.presence then (some (byteToInt8 (bus.readVals 0)), [.reset, .writeByte 0xAA, .readByte])
  else (none, [.reset])

/-- ds1821_read_counter (lines 298-304). -/
def ds1821_read_counter (bus : Bus) : Option Nat × List BusEv :=
  if bus.presence then (some (bus.readVals 0), [.reset, .writeByte 0xA0, .readByte])
  else (none, [.reset])

/-- ds1821_read_slope (lines 306-312). -/
def ds1821_read_slope (bus : Bus) : Option Nat × List BusEv :=
  if bus.presence then (some (bus.readVals 0), [.reset, .writeByte 0xA9, .readByte])
  else (none, [.reset])

/-- ds1821_start_convert (lines 314-319). -/
def ds1821_start_convert (bus : Bus) : Option Unit × List BusEv :=
  if bus.presence then (some (), [.reset, .writeByte 0xEE])
  else (none, [.reset])

/-- ds1821_read_th (lines 321-327). -/
def ds1821_read_th (bus : Bus) : Option Int × List BusEv :=
  if bus.presence then (some (byteToInt8 (bus.readVals 0)), [.reset, .writeByte 0xA1, .readByte])
  else (none, [.reset])

/-- ds1821_read_tl (lines 329-335). -/
def ds1821_read_tl (bus : Bus) : Option Int × List BusEv :=
  if bus.presence then (some (byteToInt8 (bus.readVals 0)), [.reset, .writeByte 0xA2, .readByte])
  else (none, [.reset])

/-- ds1821_write_th (lines 337-349); th is int8_t, the byte written is its
(uint8_t) cast. -/
def ds1821_write_th (th : Int) (bus : Bus) : Option Unit × List BusEv :=
  if bus.presence then
    (some (), [.reset, .writeByte 0x01, .writeByte (toByte th), .releaseIdle, .delayUs 200000])
  else (none, [.reset])

/-- ds1821_write_tl (lines 351-363). -/
def ds1821_write_tl (tl : Int) (bus : Bus) : Option Unit × List BusEv :=
  if bus.presence then
    (some (), [.reset, .writeByte 0x02, .writeByte (toByte tl), .releaseIdle, .delayUs 200000])
  else (none, [.reset])

/-! ### Mode-switch sequence (ds1821_program.c lines 806-869)

action_set_oneshot is modelled at command-call granularity: every
ds1821_* call is one event.  Each call performs exactly one bus reset, so
the presence oracle is indexed by the call number (0-based).  Calls whose
failure the C code ignores still appear as events (the call happens and
resets the bus); only the calls whose failure aborts the action (the
initial read and the three writes, calls 0, 1, 3 and 5) consult the
oracle in the control flow. -/

/-- One command-layer call of the mode-switch sequence. -/
inductive CmdEv where
  | readDirect : CmdEv
  | writeDirect : CmdEv
  | readSkip : CmdEv
  | writeSkip : CmdEv
deriving DecidableEq, Repr

/-- Status-write attempt events. -/
def cmdIsWrite : CmdEv → Bool
  | .writeDirect => true
  | .writeSkip => true
  | _ => false

/-- Status-read events. -/
def cmdIsRead : CmdEv → Bool
  | .readDirect => true
  | .readSkip => true
  | _ => false

/-- action_set_oneshot (lines 806-869): read-verify, then three write
attempts (direct, Skip ROM, direct), each followed by a verifying read
(the third by the final readback pair).  Returns the C return value and
the sequence of command-layer calls made. -/
def action_set_oneshot (pres : Nat → Bool) : Int × List CmdEv :=
  let t0 := [CmdEv.readDirect]
  if pres 0 = false then (-1, t0) else
  let t1 := t0 ++ [CmdEv.writeDirect]
  if pres 1 = false then (-1, t1) else
  let t2 := t1 ++ [CmdEv.readDirect]
  let t3 := t2 ++ [CmdEv.writeSkip]
  if pres 3 = false then (-1, t3) else
  let t4 := t3 ++ [CmdEv.readSkip]
  let t5 := t4 ++ [CmdEv.writeDirect]
  if pres 5 = false then (-1, t5) else
  let t6 := t5 ++ [CmdEv.readDirect]
  let t7 := t6 ++ [CmdEv.readSkip]
  (0, t7)

/-! ### GPIO pin operations on the data line (ds1821_program.c lines
97-183 and 611-618)

For the open-drain invariant the bit-level operations are modelled as
traces of pigpio calls on the data pin.  The invariant: the pin is never
written at level 1, and whenever the pin direction is input the pull-up
is enabled. -/

/-- pigpio calls made on the 1-Wire data pin. -/
inductive PinEv where
  | setModeInput : PinEv
  | setModeOutput : PinEv
  | setPullUp : PinEv
  | setPullOff : PinEv
  | write (level : Nat) : PinEv
  | sample : PinEv
  | delay (us : Nat) : PinEv
deriving DecidableEq, Repr

/-- ow_release (lines 97-101): input direction, pull-up on. -/
def ow_release : List PinEv := [.setModeInput, .setPullUp]

/-- ow_drive_low (lines 103-107): output direction, write 0. -/
def ow_drive_low : List PinEv := [.setModeOutput, .write 0]

/-- ow_reset (lines 117-139): low 480, release, wait 70, sample,
wait 410. -/
def ow_reset : List PinEv :=
  ow_drive_low ++ [.delay 480] ++ ow_release ++ [.delay 70, .sample, .delay 410]

/-- ow_write_bit (lines 144-160): write-1 short low / long release,
write-0 long low / short release, 2 us recovery. -/
def ow_write_bit (bit : Bool) : List PinEv :=
  (if bit then ow_drive_low ++ [.delay 6] ++ ow_release ++ [.delay 64]
   else ow_drive_low ++ [.delay 60] ++ ow_release ++ [.delay 10]) ++ [.delay 2]

/-- ow_read_bit (lines 165-183): low 6, release, wait 9, sample,
wait 55 + 2. -/
def ow_read_bit : List PinEv :=
  ow_drive_low ++ [.delay 6] ++ ow_release ++ [.delay 9, .sample, .delay 55, .delay 2]

/-- Pin trace of ow_write_byte: the bit traces of the emitted bits in
order. -/
def ow_write_byte_pin (byte : Nat) : List PinEv :=
  ((ow_write_byte byte).map ow_write_bit).foldr (· ++ ·) []

/-- Pin trace of ow_read_byte: eight read slots. -/
def ow_read_byte_pin : List PinEv :=
  (List.replicate 8 ow_read_bit).foldr (· ++ ·) []

/-- read_tout (lines 611-618): input direction with the pull-up turned
OFF, then sample. -/
def read_tout : List PinEv := [.setModeInput, .setPullOff, .sample]

/-- Direction of the data pin. -/
inductive PinMode where
  | input : PinMode
  | output : PinMode
deriving DecidableEq, Repr

/-- Pull configuration of the data pin. -/
inductive PinPull where
  | up : PinPull
  | off : PinPull
deriving DecidableEq, Repr

/-- Data pin state tracked through a trace. -/
structure PinSt where
  mode : PinMode
  pull : PinPull
deriving DecidableEq, Repr

/-- Effect of one pigpio call on the tracked pin state. -/
def stepPin (s : PinSt) : PinEv → PinSt
  | .setModeInput => { s with mode := .input }
  | .setModeOutput => { s with mode := .output }
  | .setPullUp => { s with pull := .up }
  | .setPullOff => { s with pull := .off }
  | _ => s

/-- Run a trace from a pin state. -/
def runPin (s : PinSt) (tr : List PinEv) : PinSt := tr.foldl stepPin s

/-- Released implies pull-up: whenever the pin is in input direction its
pull-up must be enabled. -/
def releasedPullUp (s : PinSt) : Bool := s.mode == .output || s.pull == .up

/-- The released-implies-pull-up condition holds after every call of the
trace. -/
def pullUpWhenReleased : PinSt → List PinEv → Bool
  | _, [] => true
  | s, e :: rest =>
    let s' := stepPin s e
    releasedPullUp s' && pullUpWhenReleased s' rest

/-- The trace never writes the pin at a level other than 0 (never driven
high). -/
def noDriveHigh (tr : List PinEv) : Bool :=
  tr.all fun e => match e with | .write l => l == 0 | _ => true

/-- The full open-drain invariant of the claim over one trace. -/
def openDrainOk (s : PinSt) (tr : List PinEv) : Bool :=
  noDriveHigh tr && pullUpWhenReleased s tr

/-- The idle bus state established by main before any operation (line
1037 calls ow_release): input with pull-up. -/
def idleState : PinSt := ⟨.input, .up⟩

/-! ### main: argument parsing, dispatch and exit code (ds1821_program.c
lines 962-1077)

atoi is abstracted as a function argument.  The results of the hardware
actions are abstracted as an oracle of C return values.  The model mirrors
the option loop, the root / pigpio checks and the dispatch chain; the exit
code is `ret < 0 ? 1 : 0` with the early usage returns. -/

/-- Mutable parse state of the option loop of main (lines 964-998). -/
structure ParseSt where
  gpio : Int
  power : Int
  readTout : Bool
  verbose : Bool
  quiet : Bool
  action : Option String
  argTh : Int
  hasTh : Bool
  argTl : Int
  hasTl : Bool
deriving DecidableEq, Repr

/-- Defaults (lines 35-36, 82-86, 964-966). -/
def initParseSt : ParseSt :=
  { gpio := 17, power := -1, readTout := false, verbose := false, quiet := false,
    action := none, argTh := 0, hasTh := false, argTl := 0, hasTl := false }

/-- Outcome of the option loop: an early exit (--help or unknown option)
or the final parse state. -/
inductive ParseOut where
  | exitCode (code : Nat) : ParseOut
  | parsed (st : ParseSt) : ParseOut
deriving DecidableEq, Repr

/-- The (int8_t) cast of the atoi result (lines 985, 989). -/
def int8OfInt (n : Int) : Int :=
  if n % 256 < 128 then n % 256 else n % 256 - 256

/-- The C test `argv[i][0] != '-'` on the first byte of an argument
(an empty argument has first byte 0, not a dash). -/
def firstCharIsDash (s : String) : Bool :=
  match s.data with
  | [] => false
  | c :: _ => c == '-'

/-- The option loop (lines 969-998), in source order.  A flag taking a
value only consumes it when one is left (i + 1 < argc); otherwise the
argument falls through to the later branches, exactly as in C. -/
def parseArgs (atoiFn : String → Int) : List String → ParseSt → ParseOut
  | [], st => .parsed st
  | "--gpio" :: v :: rest, st => parseArgs atoiFn rest { st with gpio := atoiFn v }
  | "--power-gpio" :: v :: rest, st => parseArgs atoiFn rest { st with power := atoiFn v }
  | "--read-tout" :: rest, st => parseArgs atoiFn rest { st with readTout := true }
  | "--verbose" :: rest, st => parseArgs atoiFn rest { st with verbose := true }
  | "-v" :: rest, st => parseArgs atoiFn rest { st with verbose := true }
  | "--quick" :: rest, st => parseArgs atoiFn rest { st with quiet := true }
  | "-q" :: rest, st => parseArgs atoiFn rest { st with quiet := true }
  | "--help" :: _, _ => .exitCode 0
  | "-h" :: _, _ => .exitCode 0
  | "set-th" :: v :: rest, st =>
    parseArgs atoiFn rest
      { st with action := some "set-th", argTh := int8OfInt (atoiFn v), hasTh := true }
  | "set-tl" :: v :: rest, st =>
    parseArgs atoiFn rest
      { st with action := some "set-tl", argTl := int8OfInt (atoiFn v), hasTl := true }
  | arg :: rest, st =>
    if firstCharIsDash arg then .exitCode 1
    else parseArgs atoiFn rest { st with action := some arg }

/-- C return values of the hardware actions, abstracted. -/
structure ActionRets where
  scanRet : Int
  probeRet : Int
  statusRet : Int
  tempRet : Int
  threshRet : Int
  oneshotRet : Int
  powerRet : Int

/-- Exit code of main (lines 962-1077): early usage exits, root check,
pigpio initialisation, the dispatch chain (lines 1047-1068) and the final
`return ret < 0 ? 1 : 0` (line 1076). -/
def mainExitCode (atoiFn : String → Int) (args : List String) (euid : Nat)
    (gpioInitOk : Bool) (acts : ActionRets) : Nat :=
  match parseArgs atoiFn args initParseSt with
  | .exitCode c => c
  | .parsed st =>
    match st.action with
    | none => 1
    | some act =>
      if euid ≠ 0 then 1
      else if gpioInitOk = false then 1
      else
        let ret : Int :=
          if act = "scan" then acts.scanRet
          else if act = "probe" then acts.probeRet
          else if act = "status" then acts.statusRet
          else if act = "temp" then acts.tempRet
          else if st.hasTh = true ∨ st.hasTl = true then acts.threshRet
          else if act = "set-oneshot" ∨ act = "fix" then
            let r1 := acts.probeRet
            let r2 := if r1 = 0 then acts.oneshotRet else r1
            if act = "fix" ∧ r2 = 0 then acts.powerRet else r2
          else 1
        if ret < 0 then 1 else 0

/-! ## Theorems -/

/-- Claim C3: for every integer-degree reading T, remaining count R and
counts-per-degree C, the millidegree value computed by the program (in
both action_read_temp and read_hw_temperature) equals
T*1000 - 250 + trunc(((C - R)*1000) / C) with C = 0 coerced to 1 and a
nonzero divisor, and at T=23, R=3, C=16 the value is 23562 millidegrees
(the real-valued degree formula giving 23.5625). -/
theorem C3_millidegrees (T : Int) (R C : Nat) :
    action_read_temp_millideg T R C = spec_millidegrees T R C ∧
    read_hw_temperature_millideg T R C = spec_millidegrees T R C ∧
    coerce_cpc C ≠ 0 ∧
    action_read_temp_millideg 23 3 16 = 23562 ∧
    spec_degrees 23 3 16 = 23.5625 := by
  refine ⟨rfl, rfl, ?_, by decide, by norm_num [spec_degrees]⟩
  unfold coerce_cpc
  by_cases h : C = 0
  · simp [h]
  · simp [h]

/-- Claim C6: appending the checksum of a 7-byte payload as an 8th byte
yields a code that validates: the checksum computed over the first 7
bytes equals the 8th byte. -/
theorem C6_crc_self_consistent (P : List Nat) (h : P.length = 7) :
    rom_crc_valid (P ++ [ow_crc8 P]) := by
  unfold rom_crc_valid
  have htake : (P ++ [ow_crc8 P]).take 7 = P := by
    rw [← h]
    exact List.take_left P [ow_crc8 P]
  have hgetD : (P ++ [ow_crc8 P]).getD 7 0 = ow_crc8 P := by
    rw [List.getD_eq_getElem?_getD]
    rw [List.getElem?_append_right (by omega)]
    simp [h]
  rw [htake, hgetD]

/-- Witness for C6 at a concrete payload. -/
theorem C6_crc_self_consistent_witness :
    rom_crc_valid ([0x22, 1, 2, 3, 4, 5, 6] ++ [ow_crc8 [0x22, 1, 2, 3, 4, 5, 6]]) :=
  C6_crc_self_consistent [0x22, 1, 2, 3, 4, 5, 6] (by decide)

set_option maxRecDepth 4096 in
/-- Claim C7: writing any byte value 0-255 with ow_write_byte (8 bits,
LSB first) and decoding the emitted bit sequence with ow_read_byte
(8 bits accumulated LSB first) reproduces the value. -/
theorem C7_byte_roundtrip : ∀ v : Nat, v < 256 → ow_read_byte (ow_write_byte v) = v := by
  decide

/-- Witness for C7 at a concrete byte. -/
theorem C7_byte_roundtrip_witness : ow_read_byte (ow_write_byte 0xA5) = 0xA5 :=
  C7_byte_roundtrip 0xA5 (by decide)

/-- Claim C5: every device-command-layer operation begins with a bus
reset, and when no presence pulse is detected it returns the error value
immediately with no further bus activity: its whole trace is the single
reset, no function code is written, no byte is read or written, and no
retry happens at this layer. -/
theorem C5_reset_first_abort_on_absence (bus : Bus) (status : Nat) (th tl : Int) :
    ((ds1821_read_status_reg bus).2.take 1 = [.reset] ∧
     (ds1821_write_status_reg status bus).2.take 1 = [.reset] ∧
     (ds1821_write_status_skiprom status bus).2.take 1 = [.reset] ∧
     (ds1821_read_status_skiprom bus).2.take 1 = [.reset] ∧
     (ds1821_read_temperature bus).2.take 1 = [.reset] ∧
     (ds1821_read_counter bus).2.take 1 = [.reset] ∧
     (ds1821_read_slope bus).2.take 1 = [.reset] ∧
     (ds1821_start_convert bus).2.take 1 = [.reset] ∧
     (ds1821_read_th bus).2.take 1 = [.reset] ∧
     (ds1821_read_tl bus).2.take 1 = [.reset] ∧
     (ds1821_write_th th bus).2.take 1 = [.reset] ∧
     (ds1821_write_tl tl bus).2.take 1 = [.reset]) ∧
    (bus.presence = false →
      ds1821_read_status_reg bus = (none, [.reset]) ∧
      ds1821_write_status_reg status bus = (none, [.reset]) ∧
      ds1821_write_status_skiprom status bus = (none, [.reset]) ∧
      ds1821_read_status_skiprom bus = (none, [.reset]) ∧
      ds1821_read_temperature bus = (none, [.reset]) ∧
      ds1821_read_counter bus = (none, [.reset]) ∧
      ds1821_read_slope bus = (none, [.reset]) ∧
      ds1821_start_convert bus = (none, [.reset]) ∧
      ds1821_read_th bus = (none, [.reset]) ∧
      ds1821_read_tl bus = (none, [.reset]) ∧
      ds1821_write_th th bus = (none, [.reset]) ∧
      ds1821_write_tl tl bus = (none, [.reset])) := by
  constructor
  · cases h : bus.presence <;>
      simp [ds1821_read_status_reg, ds1821_write_status_reg, ds1821_write_status_skiprom,
        ds1821_read_status_skiprom, ds1821_read_temperature, ds1821_read_counter,
        ds1821_read_slope, ds1821_start_convert, ds1821_read_th, ds1821_read_tl,
        ds1821_write_th, ds1821_write_tl, h]
  · intro h
    simp [ds1821_read_status_reg, ds1821_write_status_reg, ds1821_write_status_skiprom,
      ds1821_read_status_skiprom, ds1821_read_temperature, ds1821_read_counter,
      ds1821_read_slope, ds1821_start_convert, ds1821_read_th, ds1821_read_tl,
      ds1821_write_th, ds1821_write_tl, h]

/-- Witness for C5 on a concrete absent bus. -/
theorem C5_reset_first_abort_on_absence_witness :
    (Bus.mk false (fun _ => 0)).presence = false ∧
    ds1821_read_status_reg (Bus.mk false (fun _ => 0)) = (none, [.reset]) :=
  ⟨rfl, ((C5_reset_first_abort_on_absence (Bus.mk false (fun _ => 0)) 1 30 20).2 rfl).1⟩

/-- Claim C9: when the bus answers every reset, the mode-switch sequence
first read-verifies the current status, then performs exactly three
status-write attempts in the order direct, Skip ROM broadcast, direct,
each write being immediately followed by a verifying status read. -/
theorem C9_mode_switch_sequence (pres : Nat → Bool)
    (h0 : pres 0 = true) (h1 : pres 1 = true) (h3 : pres 3 = true) (h5 : pres 5 = true) :
    (action_set_oneshot pres).1 = 0 ∧
    (action_set_oneshot pres).2 =
      [.readDirect, .writeDirect, .readDirect, .writeSkip, .readSkip,
       .writeDirect, .readDirect, .readSkip] ∧
    (action_set_oneshot pres).2.filter cmdIsWrite = [.writeDirect, .writeSkip, .writeDirect] ∧
    (action_set_oneshot pres).2.headD .readSkip = .readDirect ∧
    (∀ i, cmdIsWrite ((action_set_oneshot pres).2.getD i .readDirect) = true →
      cmdIsRead ((action_set_oneshot pres).2.getD (i + 1) .writeDirect) = true) := by
  have htr : action_set_oneshot pres =
      (0, [.readDirect, .writeDirect, .readDirect, .writeSkip, .readSkip,
           .writeDirect, .readDirect, .readSkip]) := by
    unfold action_set_oneshot
    rw [h0, h1, h3, h5]
    simp
  refine ⟨by rw [htr], by rw [htr], by rw [htr]; rfl, by rw [htr]; rfl, ?_⟩
  intro i
  rw [htr]
  match i with
  | 0 => decide
  | 1 => decide
  | 2 => decide
  | 3 => decide
  | 4 => decide
  | 5 => decide
  | 6 => decide
  | 7 => decide
  | n + 8 =>
    intro h
    simp [List.getD] at h
    cases h

/-- Witness for C9 with an always-present bus. -/
theorem C9_mode_switch_sequence_witness :
    ((action_set_oneshot fun _ => true).2.filter cmdIsWrite) =
      [.writeDirect, .writeSkip, .writeDirect] :=
  (C9_mode_switch_sequence (fun _ => true) rfl rfl rfl rfl).2.2.1

/-- The released-implies-pull-up check distributes over trace
concatenation. -/
theorem pullUpWhenReleased_append (s : PinSt) (t1 t2 : List PinEv) :
    pullUpWhenReleased s (t1 ++ t2) =
      (pullUpWhenReleased s t1 && pullUpWhenReleased (runPin s t1) t2) := by
  induction t1 generalizing s with
  | nil => simp [pullUpWhenReleased, runPin]
  | cons e rest ih =>
    simp only [List.cons_append, pullUpWhenReleased, runPin, List.foldl_cons, List.append_eq]
    rw [ih (stepPin s e)]
    cases releasedPullUp (stepPin s e) <;> simp [runPin]

/-- noDriveHigh distributes over trace concatenation. -/
theorem noDriveHigh_append (t1 t2 : List PinEv) :
    noDriveHigh (t1 ++ t2) = (noDriveHigh t1 && noDriveHigh t2) := by
  simp [noDriveHigh, List.all_append]

/-- Each single write-bit trace satisfies the invariant and returns the
pin to the idle state. -/
theorem ow_write_bit_ok (b : Bool) :
    openDrainOk idleState (ow_write_bit b) = true ∧
    runPin idleState (ow_write_bit b) = idleState := by
  cases b <;> exact ⟨by decide, by decide⟩

/-- Concatenating write-bit traces preserves the invariant. -/
theorem ow_write_bits_ok (bits : List Bool) :
    openDrainOk idleState ((bits.map ow_write_bit).foldr (· ++ ·) []) = true ∧
    runPin idleState ((bits.map ow_write_bit).foldr (· ++ ·) []) = idleState := by
  induction bits with
  | nil => exact ⟨by decide, by decide⟩
  | cons b rest ih =>
    have hb := ow_write_bit_ok b
    simp only [List.map_cons, List.foldr_cons]
    constructor
    · unfold openDrainOk at *
      rw [noDriveHigh_append, pullUpWhenReleased_append, hb.2]
      have h1 := hb.1
      have h2 := ih.1
      unfold openDrainOk at h1 h2
      rw [Bool.and_eq_true] at h1 h2
      rw [h1.1, h1.2, h2.1, h2.2]
      rfl
    · unfold runPin at *
      rw [List.foldl_append, hb.2]
      exact ih.2

/-- Counterexample to claim C8 as stated: the read_tout operation of the
program leaves the data line released (input direction) with the pull-up
disabled, so the stated invariant fails on its trace. -/
theorem C8_open_drain_counterexample : openDrainOk idleState read_tout = false := by
  decide

/-- Claim C8 (amended): every 1-Wire bus operation on the data line
(release, drive low, reset, bit write, bit read, byte write, byte read),
run from the idle state, keeps the line input-with-pull-up whenever it is
released and never drives it high; the TOUT diagnostic read also never
drives the line high, but it samples the line as input with the pull-up
disabled, which is the one exception to the released-implies-pull-up
part. -/
theorem C8_open_drain_amended (b : Bool) (v : Nat) :
    openDrainOk idleState ow_release = true ∧
    openDrainOk idleState ow_drive_low = true ∧
    openDrainOk idleState ow_reset = true ∧
    openDrainOk idleState (ow_write_bit b) = true ∧
    openDrainOk idleState ow_read_bit = true ∧
    openDrainOk idleState (ow_write_byte_pin v) = true ∧
    openDrainOk idleState ow_read_byte_pin = true ∧
    noDriveHigh read_tout = true := by
  refine ⟨by decide, by decide, by decide, (ow_write_bit_ok b).1, by decide, ?_, by decide,
    by decide⟩
  exact (ow_write_bits_ok (ow_write_byte v)).1

/-- Claim C4 (code bug): with an unrecognized action name the process
exits 0, although the action is a usage error and an error message is
printed: the dispatch chain sets ret = 1 (line 1067) but the final
mapping `ret < 0 ? 1 : 0` (line 1076) only turns negative values into
exit code 1.  An unrecognized option, by contrast, exits 1 as the claim
states. -/
theorem C4_unknown_action_exits_zero (atoiFn : String → Int) (acts : ActionRets) :
    mainExitCode atoiFn ["bogus"] 0 true acts = 0 ∧
    mainExitCode atoiFn ["--bogus"] 0 true acts = 1 := by
  constructor <;> rfl

/-- Claim C10: a set-th or set-tl integer argument N is accepted with
no range check: both parse branches always succeed, the stored threshold
is N reduced mod 256 and reinterpreted as a signed 8-bit value (within
-128..127), the byte written to the device by ds1821_write_th
respectively ds1821_write_tl is N mod 256, and the argument 200 is
stored as -56. -/
theorem C10_threshold_wraparound (atoiFn : String → Int) (s : String) (N : Int)
    (h : atoiFn s = N) (bus : Bus) (hp : bus.presence = true) :
    parseArgs atoiFn ["set-th", s] initParseSt =
      .parsed { initParseSt with
                  action := some "set-th", argTh := int8OfInt N, hasTh := true } ∧
    parseArgs atoiFn ["set-tl", s] initParseSt =
      .parsed { initParseSt with
                  action := some "set-tl", argTl := int8OfInt N, hasTl := true } ∧
    (-128 ≤ int8OfInt N ∧ int8OfInt N ≤ 127) ∧
    (int8OfInt N) % 256 = N % 256 ∧
    (ds1821_write_th (int8OfInt N) bus).2 =
      [.reset, .writeByte 0x01, .writeByte (N % 256).toNat, .releaseIdle,
       .delayUs 200000] ∧
    (ds1821_write_tl (int8OfInt N) bus).2 =
      [.reset, .writeByte 0x02, .writeByte (N % 256).toNat, .releaseIdle,
       .delayUs 200000] ∧
    int8OfInt 200 = -56 := by
  have hparseTh : parseArgs atoiFn ["set-th", s] initParseSt =
      .parsed { initParseSt with
                  action := some "set-th", argTh := int8OfInt (atoiFn s),
                  hasTh := true } := rfl
  have hparseTl : parseArgs atoiFn ["set-tl", s] initParseSt =
      .parsed { initParseSt with
                  action := some "set-tl", argTl := int8OfInt (atoiFn s),
                  hasTl := true } := rfl
  rw [h] at hparseTh hparseTl
  have hmod : (int8OfInt N) % 256 = N % 256 := by
    unfold int8OfInt
    split <;> omega
  refine ⟨hparseTh, hparseTl, ?_, hmod, ?_, ?_, by decide⟩
  · unfold int8OfInt
    split <;> omega
  · unfold ds1821_write_th toByte
    rw [hp, hmod]
    simp
  · unfold ds1821_write_tl toByte
    rw [hp, hmod]
    simp

/-- Witness for C10 at argument value 200 on a present bus, covering
both the set-th and the set-tl path. -/
theorem C10_threshold_wraparound_witness :
    parseArgs (fun _ => 200) ["set-th", "200"] initParseSt =
      .parsed { initParseSt with
                  action := some "set-th", argTh := int8OfInt 200, hasTh := true } ∧
    parseArgs (fun _ => 200) ["set-tl", "200"] initParseSt =
      .parsed { initParseSt with
                  action := some "set-tl", argTl := int8OfInt 200, hasTl := true } ∧
    (-128 ≤ int8OfInt 200 ∧ int8OfInt 200 ≤ 127) ∧
    (int8OfInt 200) % 256 = (200 : Int) % 256 ∧
    (ds1821_write_th (int8OfInt 200) (Bus.mk true fun _ => 0)).2 =
      [.reset, .writeByte 0x01, .writeByte ((200 : Int) % 256).toNat, .releaseIdle,
       .delayUs 200000] ∧
    (ds1821_write_tl (int8OfInt 200) (Bus.mk true fun _ => 0)).2 =
      [.reset, .writeByte 0x02, .writeByte ((200 : Int) % 256).toNat, .releaseIdle,
       .delayUs 200000] ∧
    int8OfInt 200 = -56 :=
  C10_threshold_wraparound (fun _ => 200) "200" 200 rfl (Bus.mk true fun _ => 0) rfl

/-! ### Search ROM correctness

codeLt is the enumeration order of the search: strict lexicographic
order on equal-length codes with bit position 0 most significant and
false before true. -/

theorem codeLt_irrefl (a : List Bool) : codeLt a a = false := by
  induction a with
  | nil => rfl
  | cons x as ih => cases x <;> simp [codeLt, ih]

theorem codeLt_asymm (a b : List Bool) (h : codeLt a b = true) : codeLt b a = false := by
  induction a generalizing b with
  | nil => cases b <;> simp [codeLt] at h
  | cons x as ih =>
    cases b with
    | nil => simp [codeLt] at h
    | cons y bs =>
      cases x <;> cases y <;> simp_all [codeLt]

theorem codeLt_total (a b : List Bool) (hlen : a.length = b.length) (hne : a ≠ b) :
    codeLt a b = true ∨ codeLt b a = true := by
  induction a generalizing b with
  | nil =>
    cases b with
    | nil => exact absurd rfl hne
    | cons y bs => simp at hlen
  | cons x as ih =>
    cases b with
    | nil => simp at hlen
    | cons y bs =>
      simp only [List.length_cons, Nat.add_right_cancel_iff] at hlen
      by_cases hxy : x = y
      · subst hxy
        have hne' : as ≠ bs := fun h => hne (by rw [h])
        rcases ih bs hlen hne' with h | h
        · left
          cases x <;> simp [codeLt, h]
        · right
          cases x <;> simp [codeLt, h]
      · cases x <;> cases y <;> simp_all [codeLt]

theorem codeLt_trans (a b c : List Bool) (h1 : codeLt a b = true) (h2 : codeLt b c = true) :
    codeLt a c = true := by
  induction a generalizing b c with
  | nil => cases b <;> simp [codeLt] at h1
  | cons x as ih =>
    cases b with
    | nil => simp [codeLt] at h1
    | cons y bs =>
      cases c with
      | nil => simp [codeLt] at h2
      | cons z cs =>
        cases x <;> cases y <;> cases z <;> simp_all [codeLt] <;> exact ih bs cs h1 h2

theorem getD_eq_of_take_eq (j i : Nat) (a b : List Bool) (h : a.take j = b.take j)
    (hij : i < j) : a.getD i false = b.getD i false := by
  induction j generalizing i a b with
  | zero => omega
  | succ j ih =>
    cases a with
    | nil =>
      cases b with
      | nil => rfl
      | cons y bs => simp [List.take_succ_cons] at h
    | cons x as =>
      cases b with
      | nil => simp [List.take_succ_cons] at h
      | cons y bs =>
        simp only [List.take_succ_cons, List.cons.injEq] at h
        cases i with
        | zero => simpa using h.1
        | succ i => simpa using ih i as bs h.2 (by omega)

theorem codeLt_of_take_getD (j : Nat) (a b : List Bool) (ha : j < a.length)
    (hb : j < b.length) (htake : a.take j = b.take j) (haj : a.getD j false = false)
    (hbj : b.getD j false = true) : codeLt a b = true := by
  induction j generalizing a b with
  | zero =>
    cases a with
    | nil => simp at ha
    | cons x as =>
      cases b with
      | nil => simp at hb
      | cons y bs =>
        simp only [List.getD_cons_zero] at haj hbj
        subst haj hbj
        simp [codeLt]
  | succ j ih =>
    cases a with
    | nil => simp at ha
    | cons x as =>
      cases b with
      | nil => simp at hb
      | cons y bs =>
        simp only [List.take_succ_cons, List.cons.injEq] at htake
        have hx : x = y := htake.1
        subst hx
        have := ih as bs (by simpa using ha) (by simpa using hb) htake.2
          (by simpa using haj) (by simpa using hbj)
        cases x <;> simp [codeLt, this]

theorem codeLt_firstDiff (a b : List Bool) (hlen : a.length = b.length)
    (h : codeLt a b = true) :
    ∃ j, j < a.length ∧ a.take j = b.take j ∧ a.getD j false = false ∧
      b.getD j false = true := by
  induction a generalizing b with
  | nil => cases b <;> simp [codeLt] at h
  | cons x as ih =>
    cases b with
    | nil => simp [codeLt] at h
    | cons y bs =>
      simp only [List.length_cons, Nat.add_right_cancel_iff] at hlen
      by_cases hxy : x = y
      · subst hxy
        have h' : codeLt as bs = true := by
          cases x <;> simpa [codeLt] using h
        obtain ⟨j, hj, ht, ha, hb⟩ := ih bs hlen h'
        exact ⟨j + 1, by simpa using Nat.succ_lt_succ hj, by simp [List.take_succ_cons, ht],
          by simpa using ha, by simpa using hb⟩
      · have hx : x = false ∧ y = true := by
          cases x <;> cases y <;> simp_all [codeLt]
        exact ⟨0, by simp, by simp, by simp [hx.1], by simp [hx.2]⟩

/-- Membership in the filtered tail list of participating devices. -/
theorem mem_part_tail (part : List (List Bool)) (b : Bool) (x : List Bool) :
    (x ∈ (part.filter fun d => d.headD false == b).map List.tail) ↔
      ∃ d, (d ∈ part ∧ d.headD false = b) ∧ d.tail = x := by
  simp [List.mem_map, List.mem_filter]

/-- A nonempty participating list cannot read both response bits as 1. -/
theorem not_both_bits (part : List (List Bool)) (hne : part ≠ []) :
    ((part.all fun d => d.headD false) && (part.all fun d => !(d.headD false))) = false := by
  obtain ⟨d, hd⟩ := List.exists_mem_of_ne_nil part hne
  by_contra hcon
  rw [Bool.not_eq_false, Bool.and_eq_true, List.all_eq_true, List.all_eq_true] at hcon
  have h1 := hcon.1 d hd
  have h2 := hcon.2 d hd
  rw [h1] at h2
  simp at h2

/-- A member of a list of (n+1)-length codes is its head consed on its
tail. -/
theorem code_cons_form (d : List Bool) (n : Nat) (h : d.length = n + 1) :
    d = d.headD false :: d.tail := by
  cases d with
  | nil => simp at h
  | cons x xs => rfl

/-- The filtered tail list is nonempty as soon as some device carries the
chosen bit. -/
theorem part_tail_ne_nil (part : List (List Bool)) (b : Bool)
    (h : ∃ d, d ∈ part ∧ d.headD false = b) :
    (part.filter fun d => d.headD false == b).map List.tail ≠ [] := by
  obtain ⟨d, hd, hb⟩ := h
  have : d.tail ∈ (part.filter fun d => d.headD false == b).map List.tail :=
    (mem_part_tail part b d.tail).mpr ⟨d, ⟨hd, hb⟩, rfl⟩
  exact List.ne_nil_of_mem this

/-- Lengths of the filtered tails. -/
theorem part_tail_length (part : List (List Bool)) (b : Bool) (n : Nat)
    (hlen : ∀ d ∈ part, d.length = n + 1) :
    ∀ x ∈ (part.filter fun d => d.headD false == b).map List.tail, x.length = n := by
  intro x hx
  obtain ⟨d, ⟨hd, _⟩, ht⟩ := (mem_part_tail part b x).mp hx
  have := hlen d hd
  rw [← ht, List.length_tail, this]
  omega

/-- Lift membership through one chosen bit. -/
theorem searchPass_mem_lift (part : List (List Bool)) (n : Nat) (dir : Bool)
    (c' : List Bool) (hlen : ∀ d ∈ part, d.length = n + 1)
    (hmem : c' ∈ (part.filter fun d => d.headD false == dir).map List.tail) :
    dir :: c' ∈ part := by
  obtain ⟨d, ⟨hd, hb⟩, ht⟩ := (mem_part_tail part dir c').mp hmem
  have hform := code_cons_form d n (hlen d hd)
  rw [hb, ht] at hform
  rwa [← hform]

/-- Lift minimality through one chosen bit: devices sharing the chosen
bit are handled by minimality on the tails, the others by the given
escape. -/
theorem searchPass_min_lift (part : List (List Bool)) (n : Nat) (dir : Bool)
    (c' : List Bool) (hlen : ∀ d ∈ part, d.length = n + 1)
    (hmin : ∀ x ∈ (part.filter fun d => d.headD false == dir).map List.tail,
      x ≠ c' → codeLt c' x = true)
    (hother : ∀ d ∈ part, d.headD false ≠ dir → codeLt (dir :: c') d = true) :
    ∀ d ∈ part, d ≠ dir :: c' → codeLt (dir :: c') d = true := by
  intro d hd hne
  by_cases hb : d.headD false = dir
  · have hform := code_cons_form d n (hlen d hd)
    have htl : d.tail ∈ (part.filter fun x => x.headD false == dir).map List.tail :=
      (mem_part_tail part dir d.tail).mpr ⟨d, ⟨hd, hb⟩, rfl⟩
    have htlne : d.tail ≠ c' := by
      intro heq
      apply hne
      rw [hform, hb, heq]
    have := hmin d.tail htl htlne
    rw [hform, hb]
    cases dir <;> simp [codeLt, this]
  · exact hother d hd hb

/-- Unfolding of the bit loop at a cons position when devices are still
participating (no abort). -/
theorem searchPassAux_step (part : List (List Bool)) (pb : Bool) (prest : List Bool)
    (bitPos : Nat) (k nd : Int) (hne : part ≠ []) :
    searchPassAux part (pb :: prest) bitPos k nd =
      (let dn := searchDirNd (part.all fun d => d.headD false)
          (part.all fun d => !(d.headD false)) bitPos k nd pb
       match searchPassAux ((part.filter fun d => d.headD false == dn.1).map List.tail)
           prest (bitPos + 1) k dn.2 with
       | none => none
       | some (c, ndf) => some (dn.1 :: c, ndf)) := by
  have hb := not_both_bits part hne
  show (if ((part.all fun d => d.headD false) && (part.all fun d => !(d.headD false)))
      then none else _) = _
  rw [hb]
  rfl

/-- Unfolding of lastZero at a cons position. -/
theorem lastZero_cons (part : List (List Bool)) (b : Bool) (rest : List Bool)
    (bitPos : Nat) (nd : Int) :
    lastZero part (b :: rest) bitPos nd =
      lastZero ((part.filter fun d => d.headD false == b).map List.tail) rest (bitPos + 1)
        (if b = false ∧ (part.any fun d => d.headD false) = true ∧
            (part.any fun d => !(d.headD false)) = true then (bitPos : Int) else nd) := rfl

/-- searchDirNd when all devices agree on bit value 1. -/
theorem searchDirNd_one (bitPos : Nat) (k nd : Int) (pb : Bool) :
    searchDirNd true false bitPos k nd pb = (true, nd) := by
  unfold searchDirNd
  simp

/-- searchDirNd when all devices agree on bit value 0. -/
theorem searchDirNd_zero (bitPos : Nat) (k nd : Int) (pb : Bool) :
    searchDirNd false true bitPos k nd pb = (false, nd) := by
  unfold searchDirNd
  simp

/-- searchDirNd at a discrepancy past the last recorded discrepancy:
0-branch, record the position. -/
theorem searchDirNd_disc_past (bitPos : Nat) (k nd : Int) (pb : Bool)
    (hk : k < (bitPos : Int)) :
    searchDirNd false false bitPos k nd pb = (false, (bitPos : Int)) := by
  unfold searchDirNd
  have h1 : ¬ ((bitPos : Int) = k) := by omega
  have h2 : (bitPos : Int) > k := hk
  simp [h1, h2]

/-- searchDirNd at the discrepancy that equals the last recorded one:
1-branch, nothing recorded. -/
theorem searchDirNd_disc_at (bitPos : Nat) (nd : Int) (pb : Bool) :
    searchDirNd false false bitPos (bitPos : Int) nd pb = (true, nd) := by
  unfold searchDirNd
  simp

/-- searchDirNd at a discrepancy before the last recorded one: replay the
previous bit, record the position when that bit is 0. -/
theorem searchDirNd_disc_replay (bitPos : Nat) (k nd : Int) (pb : Bool)
    (hk : (bitPos : Int) < k) :
    searchDirNd false false bitPos k nd pb =
      (pb, if pb = false then (bitPos : Int) else nd) := by
  unfold searchDirNd
  have h1 : ¬ ((bitPos : Int) = k) := by omega
  have h2 : ¬ ((bitPos : Int) > k) := by omega
  simp [h1, h2]

/-- A failing List.all yields a witness. -/
theorem exists_false_of_all_false {α : Type} (l : List α) (p : α → Bool)
    (h : l.all p = false) : ∃ x, x ∈ l ∧ p x = false := by
  have h1 : ¬ ∀ x ∈ l, p x = true := by
    intro hall
    rw [List.all_eq_true.mpr hall] at h
    cases h
  push_neg at h1
  obtain ⟨x, hx, hpx⟩ := h1
  exact ⟨x, hx, Bool.eq_false_iff.mpr hpx⟩

/-- When every device reports bit 0, the id-bit line reads 0 and stays 0. -/
theorem any_head_of_all_not (part : List (List Bool))
    (h : (part.all fun d => !(d.headD false)) = true) :
    (part.any fun d => d.headD false) = false := by
  cases hany : part.any fun d => d.headD false
  · rfl
  · obtain ⟨d, hd, hpd⟩ := List.any_eq_true.mp hany
    have := List.all_eq_true.mp h d hd
    rw [hpd] at this
    simp at this

/-- A failing complement-all means some device carries bit 1. -/
theorem any_head_of_not_all_not (part : List (List Bool))
    (h : (part.all fun d => !(d.headD false)) = false) :
    (part.any fun d => d.headD false) = true := by
  obtain ⟨d, hd, hpd⟩ := exists_false_of_all_false part _ h
  refine List.any_eq_true.mpr ⟨d, hd, ?_⟩
  cases hh : d.headD false
  · rw [hh] at hpd
    simp at hpd
  · rfl

/-- A failing id-all means some device carries bit 0. -/
theorem any_nothead_of_not_all (part : List (List Bool))
    (h : (part.all fun d => d.headD false) = false) :
    (part.any fun d => !(d.headD false)) = true := by
  obtain ⟨d, hd, hpd⟩ := exists_false_of_all_false part _ h
  exact List.any_eq_true.mpr ⟨d, hd, by rw [hpd]; rfl⟩

/-- Pass lemma for the region past the last discrepancy: with devices
present, the bit loop completes, selects the smallest participating code
in codeLt order, and records the last 0-branch discrepancy via lastZero. -/
theorem searchPassA (prev : List Bool) :
    ∀ (part : List (List Bool)) (bitPos : Nat) (k nd : Int),
    part ≠ [] → (∀ d ∈ part, d.length = prev.length) → k < (bitPos : Int) →
    ∃ c, searchPassAux part prev bitPos k nd = some (c, lastZero part c bitPos nd) ∧
      c ∈ part ∧ ∀ d ∈ part, d ≠ c → codeLt c d = true := by
  induction prev with
  | nil =>
    intro part bitPos k nd hne hlen _
    refine ⟨[], rfl, ?_, ?_⟩
    · obtain ⟨d, hd⟩ := List.exists_mem_of_ne_nil part hne
      have hd0 : d = [] := List.length_eq_zero.mp (by simpa using hlen d hd)
      rwa [← hd0]
    · intro d hd hne'
      have hd0 : d = [] := List.length_eq_zero.mp (by simpa using hlen d hd)
      exact absurd hd0 hne'
  | cons pb prest ih =>
    intro part bitPos k nd hne hlen hk
    have hlen' : ∀ d ∈ part, d.length = prest.length + 1 := by
      intro d hd
      simpa using hlen d hd
    have hkk : k < ((bitPos + 1 : Nat) : Int) := by push_cast; omega
    cases hid : (part.all fun d => d.headD false) <;>
      cases hcmp : (part.all fun d => !(d.headD false))
    · -- discrepancy: both bit values present, take the 0-branch, record
      have hex0 : ∃ d, d ∈ part ∧ d.headD false = false := by
        obtain ⟨d, hd, hpd⟩ := exists_false_of_all_false part _ hid
        exact ⟨d, hd, hpd⟩
      obtain ⟨c', heq, hmem, hmin⟩ :=
        ih ((part.filter fun d => d.headD false == false).map List.tail) (bitPos + 1) k
          (bitPos : Int) (part_tail_ne_nil part false hex0)
          (part_tail_length part false prest.length hlen') hkk
      have hlz : lastZero part (false :: c') bitPos nd =
          lastZero ((part.filter fun d => d.headD false == false).map List.tail) c'
            (bitPos + 1) (bitPos : Int) := by
        rw [lastZero_cons]
        rw [any_head_of_not_all_not part hcmp, any_nothead_of_not_all part hid]
        simp
      refine ⟨false :: c', ?_, searchPass_mem_lift part prest.length false c' hlen' hmem, ?_⟩
      · rw [searchPassAux_step part pb prest bitPos k nd hne, hid, hcmp,
          searchDirNd_disc_past bitPos k nd pb hk]
        simp only
        rw [heq, hlz]
      · refine searchPass_min_lift part prest.length false c' hlen' hmin ?_
        intro d hd hb
        have hform := code_cons_form d prest.length (hlen' d hd)
        have hb' : d.headD false = true := by
          cases hh : d.headD false
          · exact absurd hh hb
          · rfl
        rw [hform, hb']
        simp [codeLt]
    · -- all devices agree on bit 0
      have hall0 : ∀ d ∈ part, d.headD false = false := by
        intro d hd
        have := List.all_eq_true.mp hcmp d hd
        cases hh : d.headD false
        · rfl
        · rw [hh] at this
          simp at this
      have hex0 : ∃ d, d ∈ part ∧ d.headD false = false := by
        obtain ⟨d, hd⟩ := List.exists_mem_of_ne_nil part hne
        exact ⟨d, hd, hall0 d hd⟩
      obtain ⟨c', heq, hmem, hmin⟩ :=
        ih ((part.filter fun d => d.headD false == false).map List.tail) (bitPos + 1) k
          nd (part_tail_ne_nil part false hex0)
          (part_tail_length part false prest.length hlen') hkk
      have hlz : lastZero part (false :: c') bitPos nd =
          lastZero ((part.filter fun d => d.headD false == false).map List.tail) c'
            (bitPos + 1) nd := by
        rw [lastZero_cons]
        rw [any_head_of_all_not part hcmp]
        simp
      refine ⟨false :: c', ?_, searchPass_mem_lift part prest.length false c' hlen' hmem, ?_⟩
      · rw [searchPassAux_step part pb prest bitPos k nd hne, hid, hcmp, searchDirNd_zero]
        simp only
        rw [heq, hlz]
      · refine searchPass_min_lift part prest.length false c' hlen' hmin ?_
        intro d hd hb
        exact absurd (hall0 d hd) hb
    · -- all devices agree on bit 1
      have hall1 : ∀ d ∈ part, d.headD false = true := List.all_eq_true.mp hid
      have hex1 : ∃ d, d ∈ part ∧ d.headD false = true := by
        obtain ⟨d, hd⟩ := List.exists_mem_of_ne_nil part hne
        exact ⟨d, hd, hall1 d hd⟩
      obtain ⟨c', heq, hmem, hmin⟩ :=
        ih ((part.filter fun d => d.headD false == true).map List.tail) (bitPos + 1) k
          nd (part_tail_ne_nil part true hex1)
          (part_tail_length part true prest.length hlen') hkk
      have hlz : lastZero part (true :: c') bitPos nd =
          lastZero ((part.filter fun d => d.headD false == true).map List.tail) c'
            (bitPos + 1) nd := by
        rw [lastZero_cons]
        simp
      refine ⟨true :: c', ?_, searchPass_mem_lift part prest.length true c' hlen' hmem, ?_⟩
      · rw [searchPassAux_step part pb prest bitPos k nd hne, hid, hcmp, searchDirNd_one]
        simp only
        rw [heq, hlz]
      · refine searchPass_min_lift part prest.length true c' hlen' hmin ?_
        intro d hd hb
        exact absurd (hall1 d hd) hb
    · -- both response bits 1 is impossible with devices present
      exfalso
      have := not_both_bits part hne
      rw [hid, hcmp] at this
      simp at this


/-- getD at position 0 is the default-headed head. -/
theorem getD_zero_eq_headD (d : List Bool) : d.getD 0 false = d.headD false := by
  cases d <;> rfl

/-- Lifting the conclusions of the replay-pass lemma through one agreed
or replayed bit. -/
theorem searchPassC_finish (part : List (List Bool)) (pb : Bool) (prest : List Bool)
    (j : Nat) (c' : List Bool)
    (hlen' : ∀ d ∈ part, d.length = prest.length + 1)
    (hmem' : c' ∈ (part.filter fun d => d.headD false == pb).map List.tail)
    (htake' : c'.take j = prest.take j)
    (hgetD' : c'.getD j false = true)
    (hmin' : ∀ d ∈ (part.filter fun d => d.headD false == pb).map List.tail,
      d.take j = prest.take j → d.getD j false = true → d ≠ c' → codeLt c' d = true) :
    pb :: c' ∈ part ∧ (pb :: c').take (j + 1) = (pb :: prest).take (j + 1) ∧
    (pb :: c').getD (j + 1) false = true ∧
    (∀ d ∈ part, d.take (j + 1) = (pb :: prest).take (j + 1) →
      d.getD (j + 1) false = true → d ≠ pb :: c' → codeLt (pb :: c') d = true) := by
  refine ⟨searchPass_mem_lift part prest.length pb c' hlen' hmem',
    by rw [List.take_succ_cons, List.take_succ_cons, htake'],
    by rw [List.getD_cons_succ]; exact hgetD', ?_⟩
  intro d hd htk hgd hne'
  have hform := code_cons_form d prest.length (hlen' d hd)
  rw [hform, List.take_succ_cons, List.take_succ_cons] at htk
  injection htk with hdh htk'
  rw [hform, List.getD_cons_succ] at hgd
  have htl : d.tail ∈ (part.filter fun x => x.headD false == pb).map List.tail :=
    (mem_part_tail part pb d.tail).mpr ⟨d, ⟨hd, hdh⟩, rfl⟩
  have htlne : d.tail ≠ c' := by
    intro hh
    exact hne' (by rw [hform, hdh, hh])
  have hltc := hmin' d.tail htl htk' hgd htlne
  rw [hform, hdh]
  cases pb <;> simp [codeLt, hltc]

/-- Pass lemma for a pass that replays a previous code up to the recorded
discrepancy K = bitPos + j: the produced code keeps the previous bits
below K, takes the 1-branch at K, is the codeLt-least participating code
doing so, and the recorded discrepancy is again described by lastZero. -/
theorem searchPassC (j : Nat) :
    ∀ (prev : List Bool) (part : List (List Bool)) (bitPos : Nat) (nd : Int),
    prev ∈ part → (∀ d ∈ part, d.length = prev.length) → j < prev.length →
    prev.getD j false = false →
    (∃ d, d ∈ part ∧ d.take j = prev.take j ∧ d.getD j false = true) →
    ∃ c, searchPassAux part prev bitPos ((bitPos : Int) + (j : Int)) nd =
        some (c, lastZero part c bitPos nd) ∧
      c ∈ part ∧ c.take j = prev.take j ∧ c.getD j false = true ∧
      (∀ d ∈ part, d.take j = prev.take j → d.getD j false = true → d ≠ c →
        codeLt c d = true) := by
  induction j with
  | zero =>
    intro prev part bitPos nd hprev hlen hlt hpj hex
    cases prev with
    | nil => simp at hlt
    | cons pb prest =>
      have hne : part ≠ [] := List.ne_nil_of_mem hprev
      have hlen' : ∀ d ∈ part, d.length = prest.length + 1 := by
        intro d hd
        simpa using hlen d hd
      have hpb : pb = false := by simpa using hpj
      subst hpb
      obtain ⟨w, hw, _, hwg⟩ := hex
      have hwh : w.headD false = true := by rw [← getD_zero_eq_headD]; exact hwg
      have hid : (part.all fun d => d.headD false) = false := by
        cases hh : part.all fun d => d.headD false
        · rfl
        · have := List.all_eq_true.mp hh (false :: prest) hprev
          simp at this
      have hcmp : (part.all fun d => !(d.headD false)) = false := by
        cases hh : part.all fun d => !(d.headD false)
        · rfl
        · have := List.all_eq_true.mp hh w hw
          rw [hwh] at this
          simp at this
      have hex1 : ∃ d, d ∈ part ∧ d.headD false = true := ⟨w, hw, hwh⟩
      obtain ⟨c', heq, hmem', hmin'⟩ :=
        searchPassA prest ((part.filter fun d => d.headD false == true).map List.tail)
          (bitPos + 1) (bitPos : Int) nd (part_tail_ne_nil part true hex1)
          (part_tail_length part true prest.length hlen') (by push_cast; omega)
      have hlz : lastZero part (true :: c') bitPos nd =
          lastZero ((part.filter fun d => d.headD false == true).map List.tail) c'
            (bitPos + 1) nd := by
        rw [lastZero_cons]
        simp
      have hcast : (bitPos : Int) + ((0 : Nat) : Int) = (bitPos : Int) := by push_cast; ring
      refine ⟨true :: c', ?_, searchPass_mem_lift part prest.length true c' hlen' hmem',
        by simp, rfl, ?_⟩
      · rw [hcast, searchPassAux_step part false prest bitPos (bitPos : Int) nd hne, hid,
          hcmp, searchDirNd_disc_at]
        simp only
        rw [heq, hlz]
      · intro d hd _ hgd hne'
        have hform := code_cons_form d prest.length (hlen' d hd)
        have hdh : d.headD false = true := by rw [← getD_zero_eq_headD]; exact hgd
        have htl : d.tail ∈ (part.filter fun x => x.headD false == true).map List.tail :=
          (mem_part_tail part true d.tail).mpr ⟨d, ⟨hd, hdh⟩, rfl⟩
        have htlne : d.tail ≠ c' := by
          intro hh
          exact hne' (by rw [hform, hdh, hh])
        have hltc := hmin' d.tail htl htlne
        rw [hform, hdh]
        simp [codeLt, hltc]
  | succ j ih =>
    intro prev part bitPos nd hprev hlen hlt hpj hex
    cases prev with
    | nil => simp at hlt
    | cons pb prest =>
      have hne : part ≠ [] := List.ne_nil_of_mem hprev
      have hlen' : ∀ d ∈ part, d.length = prest.length + 1 := by
        intro d hd
        simpa using hlen d hd
      have hprest : prest ∈ (part.filter fun d => d.headD false == pb).map List.tail :=
        (mem_part_tail part pb prest).mpr ⟨pb :: prest, ⟨hprev, rfl⟩, rfl⟩
      have hlt' : j < prest.length := by simpa using hlt
      have hpj' : prest.getD j false = false := by simpa using hpj
      obtain ⟨w, hw, hwt, hwg⟩ := hex
      have hwform := code_cons_form w prest.length (hlen' w hw)
      rw [hwform, List.take_succ_cons, List.take_succ_cons] at hwt
      injection hwt with hwh hwt'
      rw [hwform, List.getD_cons_succ] at hwg
      have hexd : ∃ d, d ∈ (part.filter fun x => x.headD false == pb).map List.tail ∧
          d.take j = prest.take j ∧ d.getD j false = true :=
        ⟨w.tail, (mem_part_tail part pb w.tail).mpr ⟨w, ⟨hw, hwh⟩, rfl⟩, hwt', hwg⟩
      have hcast : (bitPos : Int) + ((j + 1 : Nat) : Int) =
          (((bitPos + 1 : Nat)) : Int) + (j : Int) := by push_cast; ring
      have hlens := part_tail_length part pb prest.length hlen'
      cases hid : (part.all fun d => d.headD false) <;>
        cases hcmp : (part.all fun d => !(d.headD false))
      · -- discrepancy below the recorded position: replay pb
        obtain ⟨c', heq, hmem', htake', hgetD', hmin'⟩ :=
          ih prest ((part.filter fun d => d.headD false == pb).map List.tail) (bitPos + 1)
            (if pb = false then (bitPos : Int) else nd) hprest hlens hlt' hpj' hexd
        have hlz : lastZero part (pb :: c') bitPos nd =
            lastZero ((part.filter fun d => d.headD false == pb).map List.tail) c'
              (bitPos + 1) (if pb = false then (bitPos : Int) else nd) := by
          rw [lastZero_cons]
          rw [any_head_of_not_all_not part hcmp, any_nothead_of_not_all part hid]
          cases pb <;> simp
        obtain ⟨hm1, hm2, hm3, hm4⟩ :=
          searchPassC_finish part pb prest j c' hlen' hmem' htake' hgetD' hmin'
        refine ⟨pb :: c', ?_, hm1, hm2, hm3, hm4⟩
        rw [searchPassAux_step part pb prest bitPos _ nd hne, hid, hcmp,
          searchDirNd_disc_replay bitPos _ nd pb (by push_cast; omega)]
        simp only
        rw [hcast, heq, hlz]
      · -- all participating devices agree on bit 0: pb is that bit
        have hpb : pb = false := by
          have := List.all_eq_true.mp hcmp (pb :: prest) hprev
          simpa using this
        subst hpb
        obtain ⟨c', heq, hmem', htake', hgetD', hmin'⟩ :=
          ih prest ((part.filter fun d => d.headD false == false).map List.tail) (bitPos + 1)
            nd hprest hlens hlt' hpj' hexd
        have hlz : lastZero part (false :: c') bitPos nd =
            lastZero ((part.filter fun d => d.headD false == false).map List.tail) c'
              (bitPos + 1) nd := by
          rw [lastZero_cons]
          rw [any_head_of_all_not part hcmp]
          simp
        obtain ⟨hm1, hm2, hm3, hm4⟩ :=
          searchPassC_finish part false prest j c' hlen' hmem' htake' hgetD' hmin'
        refine ⟨false :: c', ?_, hm1, hm2, hm3, hm4⟩
        rw [searchPassAux_step part false prest bitPos _ nd hne, hid, hcmp, searchDirNd_zero]
        simp only
        rw [hcast, heq, hlz]
      · -- all participating devices agree on bit 1: pb is that bit
        have hpb : pb = true := by
          have := List.all_eq_true.mp hid (pb :: prest) hprev
          simpa using this
        subst hpb
        obtain ⟨c', heq, hmem', htake', hgetD', hmin'⟩ :=
          ih prest ((part.filter fun d => d.headD false == true).map List.tail) (bitPos + 1)
            nd hprest hlens hlt' hpj' hexd
        have hlz : lastZero part (true :: c') bitPos nd =
            lastZero ((part.filter fun d => d.headD false == true).map List.tail) c'
              (bitPos + 1) nd := by
          rw [lastZero_cons]
          simp
        obtain ⟨hm1, hm2, hm3, hm4⟩ :=
          searchPassC_finish part true prest j c' hlen' hmem' htake' hgetD' hmin'
        refine ⟨true :: c', ?_, hm1, hm2, hm3, hm4⟩
        rw [searchPassAux_step part true prest bitPos _ nd hne, hid, hcmp, searchDirNd_one]
        simp only
        rw [hcast, heq, hlz]
      · exfalso
        have := not_both_bits part hne
        rw [hid, hcmp] at this
        simp at this

/-- lastZero never drops below a starting value that is at most the
current position. -/
theorem lastZero_ge (c : List Bool) :
    ∀ (part : List (List Bool)) (bitPos : Nat) (nd : Int), nd ≤ (bitPos : Int) →
    nd ≤ lastZero part c bitPos nd := by
  induction c with
  | nil => intro part bitPos nd h; exact le_refl nd
  | cons b rest ih =>
    intro part bitPos nd h
    rw [lastZero_cons]
    by_cases hc : b = false ∧ (part.any fun d => d.headD false) = true ∧
        (part.any fun d => !(d.headD false)) = true
    · rw [if_pos hc]
      exact le_trans h (ih _ (bitPos + 1) (bitPos : Int) (by push_cast; omega))
    · rw [if_neg hc]
      exact ih _ (bitPos + 1) nd (by push_cast; omega)

/-- A discrepancy position where the code takes the 0-branch bounds
lastZero from below. -/
theorem lastZero_fire (j : Nat) :
    ∀ (c : List Bool) (part : List (List Bool)) (bitPos : Nat) (nd : Int),
    c ∈ part → (∀ d ∈ part, d.length = c.length) → j < c.length →
    c.getD j false = false →
    (∃ d, d ∈ part ∧ d.take j = c.take j ∧ d.getD j false = true) →
    (bitPos : Int) + (j : Int) ≤ lastZero part c bitPos nd := by
  induction j with
  | zero =>
    intro c part bitPos nd hc hlen hlt hcj hex
    cases c with
    | nil => simp at hlt
    | cons b rest =>
      have hb : b = false := by simpa using hcj
      subst hb
      obtain ⟨w, hw, _, hwg⟩ := hex
      have hwh : w.headD false = true := by rw [← getD_zero_eq_headD]; exact hwg
      have hasT : (part.any fun d => d.headD false) = true :=
        List.any_eq_true.mpr ⟨w, hw, hwh⟩
      have hasF : (part.any fun d => !(d.headD false)) = true :=
        List.any_eq_true.mpr ⟨false :: rest, hc, by simp⟩
      rw [lastZero_cons, hasT, hasF]
      have hge := lastZero_ge rest
        ((part.filter fun d => d.headD false == false).map List.tail) (bitPos + 1)
        (bitPos : Int) (by push_cast; omega)
      split
      · push_cast
        omega
      · next hcon => exact absurd ⟨rfl, rfl, rfl⟩ hcon
  | succ j ih =>
    intro c part bitPos nd hc hlen hlt hcj hex
    cases c with
    | nil => simp at hlt
    | cons b rest =>
      have hlen' : ∀ d ∈ part, d.length = rest.length + 1 := by
        intro d hd
        simpa using hlen d hd
      have hrest : rest ∈ (part.filter fun d => d.headD false == b).map List.tail :=
        (mem_part_tail part b rest).mpr ⟨b :: rest, ⟨hc, rfl⟩, rfl⟩
      obtain ⟨w, hw, hwt, hwg⟩ := hex
      have hwform := code_cons_form w rest.length (hlen' w hw)
      rw [hwform, List.take_succ_cons, List.take_succ_cons] at hwt
      injection hwt with hwh hwt'
      rw [hwform, List.getD_cons_succ] at hwg
      have hexd : ∃ d, d ∈ (part.filter fun x => x.headD false == b).map List.tail ∧
          d.take j = rest.take j ∧ d.getD j false = true :=
        ⟨w.tail, (mem_part_tail part b w.tail).mpr ⟨w, ⟨hw, hwh⟩, rfl⟩, hwt', hwg⟩
      have hstep := ih rest ((part.filter fun d => d.headD false == b).map List.tail)
        (bitPos + 1) (if b = false ∧ (part.any fun d => d.headD false) = true ∧
            (part.any fun d => !(d.headD false)) = true then (bitPos : Int) else nd)
        hrest (part_tail_length part b rest.length hlen')
        (by simpa using hlt) (by simpa using hcj) hexd
      rw [lastZero_cons]
      push_cast at hstep ⊢
      omega

/-- Characterization of lastZero: it is either the unchanged input or a
discrepancy position where the code took the 0-branch. -/
theorem lastZero_charac (c : List Bool) :
    ∀ (part : List (List Bool)) (bitPos : Nat) (nd : Int),
    c ∈ part → (∀ d ∈ part, d.length = c.length) →
    lastZero part c bitPos nd = nd ∨
      ∃ j, j < c.length ∧ lastZero part c bitPos nd = (bitPos : Int) + (j : Int) ∧
        c.getD j false = false ∧
        ∃ d, d ∈ part ∧ d.take j = c.take j ∧ d.getD j false = true := by
  induction c with
  | nil =>
    intro part bitPos nd _ _
    left
    rfl
  | cons b rest ih =>
    intro part bitPos nd hc hlen
    have hlen' : ∀ d ∈ part, d.length = rest.length + 1 := by
      intro d hd
      simpa using hlen d hd
    have hrest : rest ∈ (part.filter fun d => d.headD false == b).map List.tail :=
      (mem_part_tail part b rest).mpr ⟨b :: rest, ⟨hc, rfl⟩, rfl⟩
    rw [lastZero_cons]
    rcases ih ((part.filter fun d => d.headD false == b).map List.tail) (bitPos + 1)
        (if b = false ∧ (part.any fun d => d.headD false) = true ∧
            (part.any fun d => !(d.headD false)) = true then (bitPos : Int) else nd)
        hrest (part_tail_length part b rest.length hlen') with h | h
    · rw [h]
      by_cases hcnd : b = false ∧ (part.any fun d => d.headD false) = true ∧
          (part.any fun d => !(d.headD false)) = true
      · right
        refine ⟨0, by simp, by rw [if_pos hcnd]; push_cast; ring, by simp [hcnd.1], ?_⟩
        obtain ⟨w, hw, hwh⟩ := List.any_eq_true.mp hcnd.2.1
        refine ⟨w, hw, by simp, ?_⟩
        rw [getD_zero_eq_headD]
        exact hwh
      · left
        rw [if_neg hcnd]
    · obtain ⟨j, hj, hval, hcj, w', hw', hwt', hwg'⟩ := h
      right
      obtain ⟨w, ⟨hw, hwh⟩, hwtail⟩ := (mem_part_tail part b w').mp hw'
      have hwform := code_cons_form w rest.length (hlen' w hw)
      refine ⟨j + 1, by simpa using Nat.succ_lt_succ hj,
        by rw [hval]; push_cast; ring, by simpa using hcj, w, hw, ?_, ?_⟩
      · rw [hwform, List.take_succ_cons, List.take_succ_cons, hwh, hwtail, hwt']
      · rw [hwform, List.getD_cons_succ, hwtail]
        exact hwg'

/-- When lastZero reports no discrepancy, the previous code is the
codeLt-greatest device. -/
theorem search_no_more (devs : List (List Bool)) (r : List Bool)
    (hlen : ∀ d ∈ devs, d.length = 64) (hr : r ∈ devs)
    (hM : lastZero devs r 0 (-1) < 0) :
    ∀ d ∈ devs, d ≠ r → codeLt d r = true := by
  intro d hd hne
  have hlr : d.length = r.length := by rw [hlen d hd, hlen r hr]
  rcases codeLt_total d r hlr hne with h | h
  · exact h
  · exfalso
    obtain ⟨j, hj, ht, ha, hb⟩ := codeLt_firstDiff r d (by rw [hlen d hd, hlen r hr]) h
    have := lastZero_fire j r devs 0 (-1) hr
      (fun x hx => by rw [hlen x hx, hlen r hr]) hj ha ⟨d, hd, ht.symm, hb⟩
    omega

/-- When lastZero reports a discrepancy K, position K is a real branch
point above the previous code. -/
theorem search_next_exists (devs : List (List Bool)) (r : List Bool)
    (hr : r ∈ devs) (hlen : ∀ d ∈ devs, d.length = 64)
    (hM : 0 ≤ lastZero devs r 0 (-1)) :
    ∃ j : Nat, lastZero devs r 0 (-1) = (j : Int) ∧ j < r.length ∧
      r.getD j false = false ∧
      ∃ d, d ∈ devs ∧ d.take j = r.take j ∧ d.getD j false = true := by
  rcases lastZero_charac r devs 0 (-1) hr
      (fun x hx => by rw [hlen x hx, hlen r hr]) with h | h
  · omega
  · obtain ⟨j, hj, hval, hcj, hex⟩ := h
    refine ⟨j, ?_, hj, hcj, hex⟩
    rw [hval]
    push_cast
    ring

/-- The code delivered by a replay pass is the codeLt-immediate successor
of the previous code among the devices. -/
theorem search_successor (devs : List (List Bool)) (r c : List Bool) (K : Nat)
    (hlen : ∀ d ∈ devs, d.length = 64) (hr : r ∈ devs) (hc : c ∈ devs)
    (hK : lastZero devs r 0 (-1) = (K : Int)) (hKlt : K < r.length)
    (hrK : r.getD K false = false)
    (hcK : c.take K = r.take K) (hcKbit : c.getD K false = true)
    (hmin : ∀ d ∈ devs, d.take K = r.take K → d.getD K false = true → d ≠ c →
      codeLt c d = true) :
    codeLt r c = true ∧ ∀ d ∈ devs, codeLt r d = true → d = c ∨ codeLt c d = true := by
  have hclen : K < c.length := by rw [hlen c hc, ← hlen r hr]; exact hKlt
  have hrc : codeLt r c = true :=
    codeLt_of_take_getD K r c hKlt hclen hcK.symm hrK hcKbit
  refine ⟨hrc, ?_⟩
  intro d hd hlt
  obtain ⟨j, hj, ht, ha, hb⟩ := codeLt_firstDiff r d (by rw [hlen d hd, hlen r hr]) hlt
  have hjK : (j : Int) ≤ (K : Int) := by
    have := lastZero_fire j r devs 0 (-1) hr
      (fun x hx => by rw [hlen x hx, hlen r hr]) hj ha ⟨d, hd, ht.symm, hb⟩
    omega
  rcases Nat.lt_or_ge j K with hjlt | hjge
  · -- first difference strictly below K: c still equals r there
    right
    have hdlen : j < d.length := by rw [hlen d hd, ← hlen r hr]; exact hj
    have hcj : c.take j = d.take j := by
      have h1 := congrArg (List.take j) hcK
      rw [List.take_take, List.take_take, min_eq_left (le_of_lt hjlt)] at h1
      rw [h1, ht]
    have hcjbit : c.getD j false = false := by
      rw [getD_eq_of_take_eq K j c r hcK hjlt]
      exact ha
    exact codeLt_of_take_getD j c d (by omega) hdlen hcj hcjbit hb
  · -- first difference exactly at K: d is in the 1-branch subtree
    have hjK' : j = K := by omega
    subst hjK'
    by_cases hdc : d = c
    · exact Or.inl hdc
    · exact Or.inr (hmin d hd ht.symm hb hdc)

/-- Splitting a filter over a disjunction of disjoint predicates, up to
permutation. -/
theorem filter_or_perm {α : Type} (l : List α) (p q : α → Bool)
    (h : ∀ a ∈ l, ¬(p a = true ∧ q a = true)) :
    (l.filter fun a => p a || q a).Perm (l.filter p ++ l.filter q) := by
  induction l with
  | nil => simp
  | cons a rest ih =>
    have hrest := ih fun x hx => h x (List.mem_cons_of_mem a hx)
    have ha := h a (List.mem_cons_self a rest)
    cases hp : p a <;> cases hq : q a
    · simpa [List.filter_cons, hp, hq] using hrest
    · simp only [List.filter_cons, hp, hq, Bool.false_or, cond_true, cond_false]
      exact (hrest.cons a).trans (List.perm_middle).symm
    · simp only [List.filter_cons, hp, hq, Bool.true_or, cond_true, cond_false]
      exact hrest.cons a
    · exact absurd ⟨hp, hq⟩ ha

/-- Filtering for a fixed code in a duplicate-free list. -/
theorem filter_beq_eq (l : List (List Bool)) (c : List Bool) (hnd : l.Nodup)
    (hc : c ∈ l) : (l.filter fun d => d == c) = [c] := by
  induction l with
  | nil => cases hc
  | cons a rest ih =>
    rw [List.nodup_cons] at hnd
    rcases List.mem_cons.mp hc with h | h
    · subst h
      have hnil : (rest.filter fun d => d == c) = [] := by
        rw [List.filter_eq_nil_iff]
        intro x hx
        simp only [beq_iff_eq]
        intro hxc
        exact hnd.1 (hxc ▸ hx)
      simp [List.filter_cons, hnil]
    · have hac : a ≠ c := fun hh => hnd.1 (hh ▸ h)
      have : (a == c) = false := by simp [hac]
      simp [List.filter_cons, this, ih hnd.2 h]

/-- The found set grows by exactly the newly delivered successor code. -/
theorem found_update (devs : List (List Bool)) (r c : List Bool) (hnd : devs.Nodup)
    (hlen : ∀ d ∈ devs, d.length = 64) (hr : r ∈ devs)
    (hc : c ∈ devs) (hrc : codeLt r c = true)
    (hsucc : ∀ d ∈ devs, codeLt r d = true → d = c ∨ codeLt c d = true) :
    (devs.filter fun d => codeLe d c).Perm
      ((devs.filter fun d => codeLe d r) ++ [c]) := by
  have hpt : ∀ d ∈ devs, codeLe d c = (codeLe d r || d == c) := by
    intro d hd
    have hiff : codeLe d c = true ↔ (codeLe d r || d == c) = true := by
      unfold codeLe
      simp only [Bool.or_eq_true, beq_iff_eq]
      constructor
      · rintro (hlt | heq)
        · by_cases hdr : d = r
          · exact Or.inl (Or.inr hdr)
          · rcases codeLt_total d r (by rw [hlen d hd, hlen r hr]) hdr with h | h
            · exact Or.inl (Or.inl h)
            · rcases hsucc d hd h with h1 | h1
              · exact Or.inr h1
              · rw [codeLt_asymm d c hlt] at h1
                cases h1
        · exact Or.inr heq
      · rintro ((hlt | heq) | heq)
        · exact Or.inl (codeLt_trans d r c hlt hrc)
        · exact Or.inl (heq ▸ hrc)
        · exact Or.inr heq
    cases hA : codeLe d c <;> cases hB : (codeLe d r || d == c) <;> simp_all
  have hdisj : ∀ d ∈ devs, ¬(codeLe d r = true ∧ (d == c) = true) := by
    intro d hd hand
    obtain ⟨h1, h2⟩ := hand
    rw [beq_iff_eq] at h2
    subst h2
    unfold codeLe at h1
    rw [Bool.or_eq_true, beq_iff_eq] at h1
    rcases h1 with h | h
    · rw [codeLt_asymm r d hrc] at h
      cases h
    · subst h
      rw [codeLt_irrefl] at hrc
      cases hrc
  have h1 : (devs.filter fun d => codeLe d c) =
      devs.filter fun d => codeLe d r || d == c := List.filter_congr hpt
  have h2 := filter_or_perm devs (fun d => codeLe d r) (fun d => d == c) hdisj
  have h3 : (devs.filter fun d => d == c) = [c] := filter_beq_eq devs c hnd hc
  rw [h1, ← h3]
  exact h2

/-- When the last code has no discrepancy left, every device has been
found. -/
theorem found_all (devs : List (List Bool)) (r : List Bool)
    (hlen : ∀ d ∈ devs, d.length = 64) (hr : r ∈ devs)
    (hM : lastZero devs r 0 (-1) < 0) :
    (devs.filter fun d => codeLe d r) = devs := by
  apply List.filter_eq_self.mpr
  intro d hd
  unfold codeLe
  by_cases hdr : d = r
  · simp [hdr]
  · rw [search_no_more devs r hlen hr hM d hd hdr]
    rfl

/-- After the first pass the found set is exactly the least device. -/
theorem found_init (devs : List (List Bool)) (c : List Bool) (hnd : devs.Nodup)
    (hc : c ∈ devs) (hmin : ∀ d ∈ devs, d ≠ c → codeLt c d = true) :
    (devs.filter fun d => codeLe d c) = [c] := by
  have hpt : ∀ d ∈ devs, codeLe d c = (d == c) := by
    intro d hd
    by_cases hdc : d = c
    · subst hdc
      unfold codeLe
      simp
    · have h1 : codeLt d c = false := codeLt_asymm c d (hmin d hd hdc)
      unfold codeLe
      simp [h1, hdc]
  rw [List.filter_congr hpt]
  exact filter_beq_eq devs c hnd hc

/-- Unfolding of the device loop with fuel left. -/
theorem searchLoop_succ (devs : List (List Bool)) (rom : List Bool) (lastDisc : Int)
    (found : List (List Bool)) (fuel : Nat) :
    searchLoop devs rom lastDisc found (fuel + 1) =
      (if devs.isEmpty then found
       else
        match searchPass devs rom lastDisc with
        | none => found
        | some (newRom, nd) =>
          if nd < 0 then found ++ [newRom]
          else searchLoop devs newRom nd (found ++ [newRom]) fuel) := rfl

/-- searchPass in terms of the bit loop. -/
theorem searchPass_def (devs : List (List Bool)) (prev : List Bool) (lastDisc : Int) :
    searchPass devs prev lastDisc = searchPassAux devs prev 0 lastDisc (-1) := rfl

/-- Main loop invariant: starting from any already-found prefix of the
codeLt enumeration with a pending discrepancy, the loop delivers a
permutation of the whole bus. -/
theorem searchLoop_perm (devs : List (List Bool)) (hlen : ∀ d ∈ devs, d.length = 64)
    (hnd : devs.Nodup) (cap : Nat) (hcap : devs.length ≤ cap) :
    ∀ (fuel : Nat) (r : List Bool) (found : List (List Bool)),
    r ∈ devs → found.Perm (devs.filter fun d => codeLe d r) →
    fuel + found.length = cap → 0 ≤ lastZero devs r 0 (-1) →
    (searchLoop devs r (lastZero devs r 0 (-1)) found fuel).Perm devs := by
  intro fuel
  induction fuel with
  | zero =>
    intro r found hr hfound hfuel _
    have h1 : found.length = (devs.filter fun d => codeLe d r).length :=
      hfound.length_eq
    have h2 : (devs.filter fun d => codeLe d r).length ≤ devs.length :=
      List.Sublist.length_le (List.filter_sublist devs)
    have h3 : (devs.filter fun d => codeLe d r) = devs :=
      (List.filter_sublist devs).eq_of_length (by omega)
    show found.Perm devs
    rw [← h3]
    exact hfound
  | succ fuel ih =>
    intro r found hr hfound hfuel hM
    have hne : devs ≠ [] := List.ne_nil_of_mem hr
    have hempty : devs.isEmpty = false := by
      cases devs
      · exact absurd rfl hne
      · rfl
    obtain ⟨K, hK, hKlt, hrK, hex⟩ := search_next_exists devs r hr hlen hM
    obtain ⟨c, heq, hc, hcK, hcKbit, hmin⟩ :=
      searchPassC K r devs 0 (-1) hr (fun x hx => by rw [hlen x hx, hlen r hr])
        hKlt hrK hex
    have hj0 : ((0 : Nat) : Int) + (K : Int) = (K : Int) := by push_cast; ring
    rw [hj0] at heq
    obtain ⟨hrc, hsucc⟩ := search_successor devs r c K hlen hr hc hK hKlt hrK hcK
      hcKbit hmin
    have hfound' : (found ++ [c]).Perm (devs.filter fun d => codeLe d c) :=
      (hfound.append_right [c]).trans
        (found_update devs r c hnd hlen hr hc hrc hsucc).symm
    rw [searchLoop_succ, hempty]
    simp only [Bool.false_eq_true, if_false]
    rw [searchPass_def, hK, heq]
    by_cases hM' : lastZero devs c 0 (-1) < 0
    · simp only [if_pos hM']
      have hall := found_all devs c hlen hc hM'
      rw [← hall]
      exact hfound'
    · simp only [if_neg hM']
      exact ih c (found ++ [c]) hc hfound'
        (by rw [List.length_append]; simpa using by omega) (by omega)

/-- Claim C1: for every simulated bus holding N distinct 64-bit codes
with N at most the device cap, ow_search_rom terminates (it is a total
function) and returns exactly those N codes, each exactly once: the
result is a permutation of the bus. -/
theorem C1_discovery_completeness (devs : List (List Bool)) (maxDevices : Nat)
    (hlen : ∀ d ∈ devs, d.length = 64) (hnd : devs.Nodup)
    (hcap : devs.length ≤ maxDevices) :
    (ow_search_rom devs maxDevices).Perm devs := by
  by_cases hne : devs = []
  · subst hne
    cases maxDevices with
    | zero => exact List.Perm.refl []
    | succ n => exact List.Perm.refl []
  · obtain ⟨f, rfl⟩ : ∃ f, maxDevices = f + 1 := by
      have h1 : 1 ≤ devs.length := by
        cases devs
        · exact absurd rfl hne
        · simp
      exact ⟨maxDevices - 1, by omega⟩
    obtain ⟨c0, heq, hc0, hmin0⟩ := searchPassA (List.replicate 64 false) devs 0 (-1) (-1)
      hne (fun d hd => by rw [hlen d hd, List.length_replicate]) (by omega)
    have hempty : devs.isEmpty = false := by
      cases devs
      · exact absurd rfl hne
      · rfl
    unfold ow_search_rom
    rw [searchLoop_succ, hempty]
    simp only [Bool.false_eq_true, if_false]
    rw [searchPass_def, heq]
    have hinit : (([] : List (List Bool)) ++ [c0]).Perm
        (devs.filter fun d => codeLe d c0) := by
      rw [found_init devs c0 hnd hc0 hmin0]
      exact List.Perm.refl _
    by_cases hM : lastZero devs c0 0 (-1) < 0
    · simp only [if_pos hM]
      have h1 := found_all devs c0 hlen hc0 hM
      have h2 := found_init devs c0 hnd hc0 hmin0
      rw [h2] at h1
      rw [← h1]
      exact List.Perm.refl _
    · simp only [if_neg hM]
      exact searchLoop_perm devs hlen hnd (f + 1) hcap f c0 ([] ++ [c0]) hc0 hinit
        (by simp) (by omega)

/-- Witness for C1 on a concrete two-device bus. -/
theorem C1_discovery_completeness_witness :
    (ow_search_rom [List.replicate 64 false, true :: List.replicate 63 false] 2).Perm
      [List.replicate 64 false, true :: List.replicate 63 false] :=
  C1_discovery_completeness
    [List.replicate 64 false, true :: List.replicate 63 false] 2
    (by decide) (by decide) (by decide)

/-- Lists agreeing bitwise below n have equal n-prefixes. -/
theorem take_eq_of_getD (n : Nat) : ∀ (x y : List Bool), n ≤ x.length → n ≤ y.length →
    (∀ j, j < n → x.getD j false = y.getD j false) → x.take n = y.take n := by
  induction n with
  | zero => intro x y _ _ _; simp
  | succ n ih =>
    intro x y hx hy h
    cases x with
    | nil => simp at hx
    | cons x0 xs =>
      cases y with
      | nil => simp at hy
      | cons y0 ys =>
        rw [List.take_succ_cons, List.take_succ_cons]
        have h0 : x0 = y0 := by simpa using h 0 (by omega)
        have ht : xs.take n = ys.take n := by
          refine ih xs ys (by simpa using hx) (by simpa using hy) ?_
          intro j hj
          simpa using h (j + 1) (by omega)
        rw [h0, ht]

/-- One successful iteration of the device loop. -/
theorem searchLoop_step_some (devs : List (List Bool)) (rom : List Bool) (lastDisc : Int)
    (found : List (List Bool)) (fuel : Nat) (newRom : List Bool) (nd : Int)
    (hempty : devs.isEmpty = false)
    (hpass : searchPass devs rom lastDisc = some (newRom, nd)) :
    searchLoop devs rom lastDisc found (fuel + 1) =
      (if nd < 0 then found ++ [newRom]
       else searchLoop devs newRom nd (found ++ [newRom]) fuel) := by
  rw [searchLoop_succ, hempty]
  simp only [Bool.false_eq_true, if_false]
  rw [hpass]

/-- Claim C2: at every discrepancy the branch bit follows the ordered
tie-break of the specification (searchDirNd with both response bits
clear), and consequently a two-device bus whose codes differ exactly at
bit k is enumerated with the bit-k-0 code first and the bit-k-1 code
second, in either bus order. -/
theorem C2_tiebreak_determinism (a b : List Bool) (k : Nat) (cap : Nat)
    (devs : List (List Bool))
    (hla : a.length = 64) (hlb : b.length = 64) (hk : k < 64)
    (hak : a.getD k false = false) (hbk : b.getD k false = true)
    (hdiff : ∀ j, j < 64 → j ≠ k → a.getD j false = b.getD j false)
    (hcap : 2 ≤ cap) (hdevs : devs = [a, b] ∨ devs = [b, a]) :
    (∀ (bitPos : Nat) (lastDisc nd : Int) (prevBit : Bool),
      searchDirNd false false bitPos lastDisc nd prevBit =
        (if (bitPos : Int) = lastDisc then (true, nd)
         else if (bitPos : Int) > lastDisc then (false, (bitPos : Int))
         else (prevBit, if prevBit = false then (bitPos : Int) else nd))) ∧
    ow_search_rom devs cap = [a, b] ∧
    ((ow_search_rom devs cap).getD 0 []).getD k false = false ∧
    ((ow_search_rom devs cap).getD 1 []).getD k false = true := by
  have htie : ∀ (bitPos : Nat) (lastDisc nd : Int) (prevBit : Bool),
      searchDirNd false false bitPos lastDisc nd prevBit =
        (if (bitPos : Int) = lastDisc then (true, nd)
         else if (bitPos : Int) > lastDisc then (false, (bitPos : Int))
         else (prevBit, if prevBit = false then (bitPos : Int) else nd)) := by
    intro bitPos lastDisc nd prevBit
    unfold searchDirNd
    rw [if_neg (by simp)]
  have hab : a ≠ b := by
    intro h
    rw [h, hbk] at hak
    cases hak
  have ha : a ∈ devs := by rcases hdevs with rfl | rfl <;> simp
  have hb : b ∈ devs := by rcases hdevs with rfl | rfl <;> simp
  have hmem2 : ∀ d ∈ devs, d = a ∨ d = b := by
    rcases hdevs with rfl | rfl
    · intro d hd
      rcases List.mem_cons.mp hd with h | h
      · exact Or.inl h
      · exact Or.inr (by simpa using h)
    · intro d hd
      rcases List.mem_cons.mp hd with h | h
      · exact Or.inr h
      · exact Or.inl (by simpa using h)
  have hne : devs ≠ [] := List.ne_nil_of_mem ha
  have hempty : devs.isEmpty = false := by
    cases devs
    · exact absurd rfl hne
    · rfl
  have hlen : ∀ d ∈ devs, d.length = 64 := by
    intro d hd
    rcases hmem2 d hd with rfl | rfl
    · exact hla
    · exact hlb
  have htake : a.take k = b.take k :=
    take_eq_of_getD k a b (by omega) (by omega) fun j hj =>
      hdiff j (by omega) (by omega)
  have hlta : codeLt a b = true :=
    codeLt_of_take_getD k a b (by omega) (by omega) htake hak hbk
  -- the recorded discrepancy after delivering a is exactly k
  have hMa : lastZero devs a 0 (-1) = (k : Int) := by
    have hge : ((0 : Nat) : Int) + (k : Int) ≤ lastZero devs a 0 (-1) :=
      lastZero_fire k a devs 0 (-1) ha (fun x hx => by rw [hlen x hx, hla]) (by omega)
        hak ⟨b, hb, htake.symm, hbk⟩
    rcases lastZero_charac a devs 0 (-1) ha (fun x hx => by rw [hlen x hx, hla])
        with h | h
    · omega
    · obtain ⟨j, hj, hval, haj, d, hd, hdt, hdg⟩ := h
      have hjk : j = k := by
        rcases hmem2 d hd with rfl | rfl
        · rw [haj] at hdg
          cases hdg
        · by_contra hne'
          have := hdiff j (by omega) hne'
          rw [haj, hdg] at this
          cases this
      subst hjk
      rw [hval]
      push_cast
      ring
  -- no discrepancy is recorded after delivering b
  have hMb : lastZero devs b 0 (-1) = -1 := by
    rcases lastZero_charac b devs 0 (-1) hb (fun x hx => by rw [hlen x hx, hlb])
        with h | h
    · exact h
    · exfalso
      obtain ⟨j, hj, _, hbj, d, hd, hdt, hdg⟩ := h
      have hjk : j = k := by
        rcases hmem2 d hd with rfl | rfl
        · by_contra hne'
          have := hdiff j (by omega) hne'
          rw [hbj, hdg] at this
          cases this
        · rw [hbj] at hdg
          cases hdg
      subst hjk
      rw [hbj] at hbk
      cases hbk
  -- first pass delivers a
  obtain ⟨c0, heqA, hc0, hmin0⟩ := searchPassA (List.replicate 64 false) devs 0 (-1) (-1)
    hne (fun d hd => by rw [hlen d hd, List.length_replicate]) (by omega)
  have hc0a : c0 = a := by
    rcases hmem2 c0 hc0 with h | h
    · exact h
    · exfalso
      have hne' : a ≠ c0 := fun hh => hab (hh.trans h)
      have hx := hmin0 a ha hne'
      rw [h, codeLt_asymm a b hlta] at hx
      cases hx
  rw [hc0a] at heqA
  -- second pass delivers b
  obtain ⟨c1, heqC, hc1, _, hc1k, _⟩ :=
    searchPassC k a devs 0 (-1) ha (fun x hx => by rw [hlen x hx, hla]) (by omega) hak
      ⟨b, hb, htake.symm, hbk⟩
  have hc1b : c1 = b := by
    rcases hmem2 c1 hc1 with h | h
    · exfalso
      rw [h, hak] at hc1k
      cases hc1k
    · exact h
  rw [hc1b] at heqC
  have hj0 : ((0 : Nat) : Int) + (k : Int) = (k : Int) := by push_cast; ring
  rw [hj0] at heqC
  obtain ⟨f, rfl⟩ : ∃ f, cap = f + 1 + 1 := ⟨cap - 2, by omega⟩
  have hres : ow_search_rom devs (f + 1 + 1) = [a, b] := by
    unfold ow_search_rom
    rw [searchLoop_step_some devs (List.replicate 64 false) (-1) [] (f + 1) a (k : Int)
      hempty (by rw [searchPass_def, heqA, hMa])]
    rw [if_neg (show ¬((k : Int) < 0) by omega)]
    rw [searchLoop_step_some devs a (k : Int) ([] ++ [a]) f b (-1)
      hempty (by rw [searchPass_def, heqC, hMb])]
    rw [if_pos (show (-1 : Int) < 0 by omega)]
    simp
  refine ⟨htie, hres, ?_, ?_⟩
  · rw [hres]
    exact hak
  · rw [hres]
    exact hbk

/-- Witness for C2 with two codes differing at bit 0. -/
theorem C2_tiebreak_determinism_witness :
    ow_search_rom [List.replicate 64 false, true :: List.replicate 63 false] 2 =
      [List.replicate 64 false, true :: List.replicate 63 false] :=
  (C2_tiebreak_determinism (List.replicate 64 false) (true :: List.replicate 63 false)
    0 2 [List.replicate 64 false, true :: List.replicate 63 false]
    (by decide) (by decide) (by decide) (by decide) (by decide)
    (by decide) (by decide) (Or.inl rfl)).2.1
